import Mathlib

/-!
# The call tree of `react` (include/react/call_tree.hpp)

A shallow embedding of `node_t`, `call_tree_t` and `concurrent_call_tree_t`,
followed by the theorems about them.

Conventions of the embedding.

* `std::vector` is a `List`; a `p_node_t` (a `size_t` index) is a `Nat`.
* `int` action codes and `int64_t` times are `Int`; the code never computes
  with them, it only stores and compares them.
* A member function that can throw returns its outcome together with the
  tree as the call leaves it: `Except fault α × call_tree_t`.  The tree is
  returned on the failing branch too, so that what a throwing call did to
  the tree can be stated.
* `nodes[i]` with `i` outside the vector is undefined behaviour in C++; the
  embedding stops there with `fault.out_of_bounds` and returns the tree as it
  stood at that point.
* The member `const actions_set_t &actions_set` is a reference to a registry
  that lives outside the tree; every operation that reads it takes the
  registry, as it stands at the call, as the argument `acts`.
* A recursion of the source that has no bound of its own (`merge_into`,
  `to_json`) takes the depth it may reach as the argument `fuel` and answers
  `none` when that depth is used up.
* The `std::mutex` of `concurrent_call_tree_t` is the flag `tree_mutex`, true
  while the mutex is held; `lock` on a held mutex waits, which is `none`.
* A `rapidjson::Value` is a `json`; an object is the list of its members in
  the order in which they were added.
* `stats` holds the entries of the `std::unordered_map`; the order in which
  a loop over the map meets them is not fixed by the standard library and is
  the argument `iterate` of the rendering.
-/

namespace react

/-! ## Data model -/

/-- Modelled from the spec: the class `actions_set_t` of actions_set.hpp, which
is not among the sources.  The spec (section 3) gives it an ordered sequence of
registered names, the position of a name being its code, and a distinguished
sentinel `NO_ACTION`; the value of the sentinel is not given, so it is a field
here. -/
structure actions_set_t where
  NO_ACTION : Int
  actions_names : List String
deriving DecidableEq

/-- Modelled from the spec: `actions_set_t::code_is_valid` (actions_set.hpp is
not among the sources).  Section 4.1: true iff `code == NO_ACTION` or
`0 <= code < count_registered`. -/
def actions_set_t.code_is_valid (acts : actions_set_t) (action_code : Int) : Bool :=
  action_code == acts.NO_ACTION ||
    (decide (0 ≤ action_code) && decide (action_code < (acts.actions_names.length : Int)))

/-- The values of `stat_value_t`, a `boost::variant<bool, int, double, std::string>`.
A `double` is kept as its 64-bit pattern: the tree stores and hands back the
value and never computes with it. -/
inductive stat_value_t where
  | bool_value (b : Bool)
  | int_value (i : Int)
  | double_value (bits : Nat)
  | string_value (s : String)
deriving DecidableEq

/-- The struct `node_t`; `links` is the `Container`, a vector of
(action code, child pointer) pairs. -/
structure node_t where
  action_code : Int
  start_time : Int
  stop_time : Int
  links : List (Int × Nat)
deriving DecidableEq

/-- The constructor `node_t(int action_code)`: zero times, no links. -/
def node_t.new (action_code : Int) : node_t :=
  { action_code := action_code, start_time := 0, stop_time := 0, links := [] }

/-- The data members of `call_tree_t` (the registry reference apart).
`stats` is the `unordered_map`, as an association list with one entry per key. -/
structure call_tree_t where
  root : Nat
  nodes : List node_t
  stats : List (String × stat_value_t)
deriving DecidableEq

/-- What ends a call early: the `std::invalid_argument` the code throws, an
index outside `nodes` (undefined behaviour in the source), the
`std::out_of_range` of `unordered_map::at` for a key that is not in the map,
and the `boost::bad_get` of `boost::get<T>` on a variant that holds another
type. -/
inductive fault where
  | invalid_argument
  | out_of_bounds
  | out_of_range
  | bad_get
deriving DecidableEq

/-- Width of `size_t` in bits. -/
def SIZE_BITS : Nat := 64

/-- The constant `call_tree_t::NO_NODE`, declared as `p_node_t NO_NODE = -1`:
the conversion of -1 to `size_t`. -/
def NO_NODE : Nat := ((-1 : Int) % (2 : Int) ^ SIZE_BITS).toNat

/-! ## Operations -/

/-- The private `call_tree_t::new_node`: `emplace_back`, then `size() - 1`. -/
def new_node (t : call_tree_t) (action_code : Int) : Nat × call_tree_t :=
  let t1 := { t with nodes := t.nodes ++ [node_t.new action_code] }
  (t1.nodes.length - 1, t1)

/-- The constructor `call_tree_t(actions_set)`: `root = new_node(NO_ACTION)` on
an empty vector and an empty map. -/
def call_tree_t.new (acts : actions_set_t) : call_tree_t :=
  let r := new_node { root := 0, nodes := [], stats := [] } acts.NO_ACTION
  { r.2 with root := r.1 }

/-- The member `get_node_links`. -/
def get_node_links (t : call_tree_t) (node : Nat) : Except fault (List (Int × Nat)) :=
  match t.nodes[node]? with
  | none => .error .out_of_bounds
  | some nd => .ok nd.links

/-- The member `get_node_action_code`. -/
def get_node_action_code (t : call_tree_t) (node : Nat) : Except fault Int :=
  match t.nodes[node]? with
  | none => .error .out_of_bounds
  | some nd => .ok nd.action_code

/-- The member `set_node_start_time`. -/
def set_node_start_time (t : call_tree_t) (node : Nat) (time : Int) :
    Except fault Unit × call_tree_t :=
  match t.nodes[node]? with
  | none => (.error .out_of_bounds, t)
  | some nd => (.ok (), { t with nodes := t.nodes.set node { nd with start_time := time } })

/-- The member `set_node_stop_time`. -/
def set_node_stop_time (t : call_tree_t) (node : Nat) (time : Int) :
    Except fault Unit × call_tree_t :=
  match t.nodes[node]? with
  | none => (.error .out_of_bounds, t)
  | some nd => (.ok (), { t with nodes := t.nodes.set node { nd with stop_time := time } })

/-- The member `get_node_start_time`. -/
def get_node_start_time (t : call_tree_t) (node : Nat) : Except fault Int :=
  match t.nodes[node]? with
  | none => .error .out_of_bounds
  | some nd => .ok nd.start_time

/-- The member `get_node_stop_time`. -/
def get_node_stop_time (t : call_tree_t) (node : Nat) : Except fault Int :=
  match t.nodes[node]? with
  | none => .error .out_of_bounds
  | some nd => .ok nd.stop_time

/-- The member `add_new_link`: the validity test and its throw, then
`new_node`, then the `push_back` on `nodes[node].links`, the index being
looked up in the vector that already holds the new node. -/
def add_new_link (acts : actions_set_t) (t : call_tree_t) (node : Nat) (action_code : Int) :
    Except fault Nat × call_tree_t :=
  if !acts.code_is_valid action_code then
    (.error .invalid_argument, t)
  else
    let r := new_node t action_code
    let action_node := r.1
    let t1 := r.2
    match t1.nodes[node]? with
    | none => (.error .out_of_bounds, t1)
    | some nd =>
      (.ok action_node,
        { t1 with nodes := t1.nodes.set node { nd with links := nd.links ++ [(action_code, action_node)] } })

/-- The member `find_link`: the validity test and its throw, then `find_if`
over the reversed links, `NO_NODE` when it reaches `rend()`. -/
def find_link (acts : actions_set_t) (t : call_tree_t) (node : Nat) (action_code : Int) :
    Except fault Nat × call_tree_t :=
  if !acts.code_is_valid action_code then
    (.error .invalid_argument, t)
  else
    match t.nodes[node]? with
    | none => (.error .out_of_bounds, t)
    | some nd =>
      match nd.links.reverse.find? (fun v => v.1 == action_code) with
      | none => (.ok NO_NODE, t)
      | some v => (.ok v.2, t)

/-- The member `add_stat`, `stats[key] = value`: the value under an existing
key is replaced, a new key gets a new entry.  The overload for `const char *`
stores a `std::string`, here `stat_value_t.string_value`. -/
def add_stat (t : call_tree_t) (key : String) (value : stat_value_t) : call_tree_t :=
  if t.stats.any (fun e => e.1 == key) then
    { t with stats := t.stats.map (fun e => if e.1 == key then (key, value) else e) }
  else
    { t with stats := t.stats ++ [(key, value)] }

/-- The `for` loop of the private `merge_into` over the links of the source
node, first link first: `add_new_link` on the target, then the recursive call
`recurse`, on the fresh child.  A throw ends the loop and leaves the target as
it stands; `none` is a recursive call that did not come back. -/
def merge_links (acts : actions_set_t)
    (recurse : Nat → Nat → call_tree_t → Option (Except fault Unit × call_tree_t))
    (rhs_node : Nat) :
    List (Int × Nat) → call_tree_t → Option (Except fault Unit × call_tree_t)
  | [], rhs_tree => some (.ok (), rhs_tree)
  | (action_code, lhs_next_node) :: rest, rhs_tree =>
    match add_new_link acts rhs_tree rhs_node action_code with
    | (.error e, rhs1) => some (.error e, rhs1)
    | (.ok rhs_next_node, rhs1) =>
      match recurse lhs_next_node rhs_next_node rhs1 with
      | none => none
      | some (.error e, rhs2) => some (.error e, rhs2)
      | some (.ok (), rhs2) => merge_links acts recurse rhs_node rest rhs2

/-- The first statement of the private `merge_into`: for a source node other
than the source root, its start and stop time are written to `rhs_node`. -/
def merge_times (lhs : call_tree_t) (lhs_node rhs_node : Nat) (rhs_tree : call_tree_t) :
    Except fault Unit × call_tree_t :=
  if lhs_node != lhs.root then
    match get_node_start_time lhs lhs_node with
    | .error e => (.error e, rhs_tree)
    | .ok start =>
      match set_node_start_time rhs_tree rhs_node start with
      | (.error e, rhs1) => (.error e, rhs1)
      | (.ok (), rhs1) =>
        match get_node_stop_time lhs lhs_node with
        | .error e => (.error e, rhs1)
        | .ok stop => set_node_stop_time rhs1 rhs_node stop
  else
    (.ok (), rhs_tree)

/-- The private, recursive `merge_into(lhs_node, rhs_node, rhs_tree)` of the
source tree `lhs`; `acts` is the registry of the target.  The C++ recursion
has no bound of its own, so the embedding counts its depth: with `fuel`
nested calls used up the answer is `none` (the call has not come back).  The
source is a value here and is read only; this is the C++ call for a target
that is another object than the source. -/
def merge_into_node (acts : actions_set_t) (lhs : call_tree_t) :
    Nat → Nat → Nat → call_tree_t → Option (Except fault Unit × call_tree_t)
  | 0, _, _, _ => none
  | fuel + 1, lhs_node, rhs_node, rhs_tree =>
    match merge_times lhs lhs_node rhs_node rhs_tree with
    | (.error e, rhs1) => some (.error e, rhs1)
    | (.ok (), rhs1) =>
      match get_node_links lhs lhs_node with
      | .error e => some (.error e, rhs1)
      | .ok links => merge_links acts (merge_into_node acts lhs fuel) rhs_node links rhs1

/-- The public `merge_into(rhs_node, rhs_tree)`: the recursive one, started at
the root of the source. -/
def merge_into (acts : actions_set_t) (fuel : Nat) (lhs : call_tree_t) (rhs_node : Nat)
    (rhs_tree : call_tree_t) : Option (Except fault Unit × call_tree_t) :=
  merge_into_node acts lhs fuel lhs.root rhs_node rhs_tree

/-- The overload `add_stat(key, const char *value)`: it stores
`std::string(value)`. -/
def add_stat_cstr (t : call_tree_t) (key : String) (value : String) : call_tree_t :=
  add_stat t key (stat_value_t.string_value value)

/-- The member `has_stat`: `stats.find(key) != stats.end()`. -/
def has_stat (t : call_tree_t) (key : String) : Bool :=
  (t.stats.find? (fun e => e.1 == key)).isSome

/-- The four types a `get_stat<T>` can ask for. -/
inductive stat_type where
  | bool
  | int
  | double
  | string
deriving DecidableEq

/-- The type that a value of the variant holds. -/
def stat_value_t.type_of : stat_value_t → stat_type
  | .bool_value _ => .bool
  | .int_value _ => .int
  | .double_value _ => .double
  | .string_value _ => .string

/-- The member `get_stat<T>`, `boost::get<T>(stats.at(key))`: `at` throws
`std::out_of_range` for a key without entry, `boost::get<T>` throws
`boost::bad_get` when the variant holds another type than `T`. -/
def get_stat (t : call_tree_t) (T : stat_type) (key : String) : Except fault stat_value_t :=
  match t.stats.find? (fun e => e.1 == key) with
  | none => .error .out_of_range
  | some e => if e.2.type_of = T then .ok e.2 else .error .bad_get

/-- The class `concurrent_call_tree_t`: the mutex, as the flag that says
whether it is held, and the inner tree. -/
structure concurrent_call_tree_t where
  tree_mutex : Bool
  call_tree : call_tree_t
deriving DecidableEq

/-- The member `lock`: it takes the mutex when that is free; on a mutex that
is held the call waits, which is `none` here. -/
def concurrent_call_tree_t.lock (c : concurrent_call_tree_t) : Option concurrent_call_tree_t :=
  if c.tree_mutex then none else some { c with tree_mutex := true }

/-- The member `unlock`. -/
def concurrent_call_tree_t.unlock (c : concurrent_call_tree_t) : concurrent_call_tree_t :=
  { c with tree_mutex := false }

/-- The member `get_call_tree`. -/
def concurrent_call_tree_t.get_call_tree (c : concurrent_call_tree_t) : call_tree_t :=
  c.call_tree

/-- The member `copy_call_tree`: `lock()`, the copy of the inner tree (the
copy constructor of `call_tree_t` copies `root`, `nodes` and `stats`),
`unlock()`, and the copy is returned.  The value is the copy together with the
shared tree as the call leaves it. -/
def concurrent_call_tree_t.copy_call_tree (c : concurrent_call_tree_t) :
    Option (call_tree_t × concurrent_call_tree_t) :=
  match c.lock with
  | none => none
  | some c1 =>
    let call_tree_copy := c1.call_tree
    let c2 := c1.unlock
    some (call_tree_copy, c2)

/-! ## Vocabulary of the statements -/

/-- A finite tree of nodes: code and times of the node, and for every link,
in link order, the code of the link and the tree under its child. -/
inductive shape where
  | mk (action_code start_time stop_time : Int) (children : List (Int × shape))

/-- Shapes under the links of one node, first link first; `none` when one of
them has none. -/
def shapes_of (recurse : Nat → Option shape) : List (Int × Nat) → Option (List (Int × shape))
  | [] => some []
  | (code, child) :: rest =>
    match recurse child, shapes_of recurse rest with
    | some s, some ss => some ((code, s) :: ss)
    | _, _ => none

/-- The tree that hangs under node `node` of an arena, read off to depth
`fuel`; `none` when the links lead outside the arena or deeper than `fuel`. -/
def shape_of (t : call_tree_t) : Nat → Nat → Option shape
  | 0, _ => none
  | fuel + 1, node =>
    match t.nodes[node]? with
    | none => none
    | some nd =>
      match shapes_of (shape_of t fuel) nd.links with
      | none => none
      | some ss => some (shape.mk nd.action_code nd.start_time nd.stop_time ss)

/-- The links of node `i`, none for an index outside the arena. -/
def links_at (t : call_tree_t) (i : Nat) : List (Int × Nat) :=
  match t.nodes[i]? with
  | none => []
  | some nd => nd.links

/-- The action code of node `i`, if there is such a node. -/
def code_at (t : call_tree_t) (i : Nat) : Option Int :=
  match t.nodes[i]? with
  | none => none
  | some nd => some nd.action_code

/-- Every child pointer stored in the arena is an index of the arena. -/
def links_in_range (t : call_tree_t) : Prop :=
  ∀ i, i < t.nodes.length → ∀ l ∈ links_at t i, l.2 < t.nodes.length

/-- A well-formed arena: the root is node 0, and every link of every node
leads to a later node of the arena whose action code is the code of the link. -/
def well_formed (t : call_tree_t) : Prop :=
  t.root = 0 ∧ 0 < t.nodes.length ∧
    ∀ i, i < t.nodes.length → ∀ l ∈ links_at t i, i < l.2 ∧ code_at t l.2 = some l.1

/-- Every code that a link of the arena carries is valid in the registry. -/
def codes_valid (acts : actions_set_t) (t : call_tree_t) : Prop :=
  ∀ i, i < t.nodes.length → ∀ l ∈ links_at t i, acts.code_is_valid l.1 = true

instance (t : call_tree_t) : Decidable (links_in_range t) := by
  unfold links_in_range; infer_instance

instance (t : call_tree_t) : Decidable (well_formed t) := by
  unfold well_formed; infer_instance

instance (acts : actions_set_t) (t : call_tree_t) : Decidable (codes_valid acts t) := by
  unfold codes_valid; infer_instance

/-- One call on an arena.  A call that reads the registry carries the registry
as it stands at that call; a merge carries the source tree and the depth its
recursion may reach. -/
inductive arena_op where
  | add_new_link (acts : actions_set_t) (node : Nat) (action_code : Int)
  | find_link (acts : actions_set_t) (node : Nat) (action_code : Int)
  | set_node_start_time (node : Nat) (time : Int)
  | set_node_stop_time (node : Nat) (time : Int)
  | add_stat (key : String) (value : stat_value_t)
  | merge_into (acts : actions_set_t) (fuel : Nat) (lhs : call_tree_t) (rhs_node : Nat)

/-- The node argument of the call is an index of the arena. -/
def arena_op.node_in_range (t : call_tree_t) : arena_op → Bool
  | .add_new_link _ node _ => decide (node < t.nodes.length)
  | .find_link _ node _ => decide (node < t.nodes.length)
  | .set_node_start_time node _ => decide (node < t.nodes.length)
  | .set_node_stop_time node _ => decide (node < t.nodes.length)
  | .add_stat _ _ => true
  | .merge_into _ _ _ rhs_node => decide (rhs_node < t.nodes.length)

/-- The arena after the call, whether the call returned or threw; `none` for a
merge whose recursion did not come back. -/
def arena_op.apply (t : call_tree_t) : arena_op → Option call_tree_t
  | .add_new_link acts node action_code => some (react.add_new_link acts t node action_code).2
  | .find_link acts node action_code => some (react.find_link acts t node action_code).2
  | .set_node_start_time node time => some (react.set_node_start_time t node time).2
  | .set_node_stop_time node time => some (react.set_node_stop_time t node time).2
  | .add_stat key value => some (react.add_stat t key value)
  | .merge_into acts fuel lhs rhs_node =>
    (react.merge_into acts fuel lhs rhs_node t).map (fun r => r.2)

/-- The arena after a sequence of calls, each with its node argument inside
the arena it is applied to; `none` when a call has its node argument outside,
or does not come back. -/
def run_ops : call_tree_t → List arena_op → Option call_tree_t
  | t, [] => some t
  | t, op :: rest =>
    if op.node_in_range t then
      match op.apply t with
      | none => none
      | some t1 => run_ops t1 rest
    else none

/-- Modelled from the spec: `enter` of the Scope Updater in distinct mode
(section 4.4; the updater is not among the sources): always
`add_new_link(cursor, action_code)`, then `start_time = now` on the new child,
which is the new cursor and the value returned. -/
def enter_distinct (acts : actions_set_t) (t : call_tree_t) (cursor : Nat) (action_code : Int)
    (now : Int) : Except fault Nat × call_tree_t :=
  match add_new_link acts t cursor action_code with
  | (.error e, t1) => (.error e, t1)
  | (.ok child, t1) =>
    match set_node_start_time t1 child now with
    | (.error e, t2) => (.error e, t2)
    | (.ok (), t2) => (.ok child, t2)

/-- Modelled from the spec: `enter` of the Scope Updater in merge mode
(section 4.4; the updater is not among the sources):
`find_link(cursor, action_code)`; a child that is found is reused and its
`start_time` overwritten; when none is found the step is that of distinct
mode. -/
def enter_merge (acts : actions_set_t) (t : call_tree_t) (cursor : Nat) (action_code : Int)
    (now : Int) : Except fault Nat × call_tree_t :=
  match find_link acts t cursor action_code with
  | (.error e, t1) => (.error e, t1)
  | (.ok found, t1) =>
    if found = NO_NODE then enter_distinct acts t1 cursor action_code now
    else
      match set_node_start_time t1 found now with
      | (.error e, t2) => (.error e, t2)
      | (.ok (), t2) => (.ok found, t2)

/-- Modelled from the spec: `exit` of the Scope Updater (section 4.4; the
updater is not among the sources): `stop_time = now` on the cursor node; the
cursor then goes back to the parent. -/
def exit_scope (t : call_tree_t) (cursor : Nat) (now : Int) : Except fault Unit × call_tree_t :=
  set_node_stop_time t cursor now

/-- Entering `action_code` at `cursor`, leaving, and entering it again at
`cursor`, at the times `t1`, `t2`, `t3`; `merge` chooses merge mode.  The
value is the pair of the two children entered. -/
def enter_twice (merge : Bool) (acts : actions_set_t) (t : call_tree_t) (cursor : Nat)
    (action_code : Int) (t1 t2 t3 : Int) : Except fault (Nat × Nat) × call_tree_t :=
  let enter := fun (tr : call_tree_t) (now : Int) =>
    if merge then enter_merge acts tr cursor action_code now
    else enter_distinct acts tr cursor action_code now
  match enter t t1 with
  | (.error e, a) => (.error e, a)
  | (.ok first, a) =>
    match exit_scope a first t2 with
    | (.error e, b) => (.error e, b)
    | (.ok (), b) =>
      match enter b t3 with
      | (.error e, c) => (.error e, c)
      | (.ok second, c) => (.ok (first, second), c)

/-- The tree under node `node` of an arena, read to the depth that the node
count of the arena allows. -/
def subtree (t : call_tree_t) (node : Nat) : Option shape :=
  shape_of t t.nodes.length node

/-- The arena `b` is the arena `a` grown at node `r`: same root pointer and
stat map, the nodes of `a` still at their indices and the same, node `r`
apart, which keeps its action code and has its old links followed by links to
nodes that are new in `b`; its times may differ.  The nodes that are new in
`b` link to later nodes of `b` only, and every new link carries the action
code of its child. -/
structure grown_at (a b : call_tree_t) (r : Nat) : Prop where
  root_eq : b.root = a.root
  stats_eq : b.stats = a.stats
  length_le : a.nodes.length ≤ b.nodes.length
  others : ∀ i, i < a.nodes.length → i ≠ r → b.nodes[i]? = a.nodes[i]?
  target : ∃ nd added start stop, a.nodes[r]? = some nd ∧
    b.nodes[r]? = some { action_code := nd.action_code, start_time := start, stop_time := stop,
                         links := nd.links ++ added } ∧
    ∀ l ∈ added, a.nodes.length ≤ l.2 ∧ l.2 < b.nodes.length ∧ code_at b l.2 = some l.1
  fresh : ∀ j, a.nodes.length ≤ j → j < b.nodes.length →
    ∀ l ∈ links_at b j, j < l.2 ∧ l.2 < b.nodes.length ∧ code_at b l.2 = some l.1

/-- The start and stop time of node `i`, if there is such a node. -/
def times_at (t : call_tree_t) (i : Nat) : Option (Int × Int) :=
  match t.nodes[i]? with
  | none => none
  | some nd => some (nd.start_time, nd.stop_time)

/-- The arena `b` has the root pointer of `a` and still holds every node of
`a`, at its index and with its action code. -/
def keeps_nodes (a b : call_tree_t) : Prop :=
  b.root = a.root ∧ a.nodes.length ≤ b.nodes.length ∧
    ∀ i, i < a.nodes.length → code_at b i = code_at a i

/-- The value stored under `key` in the stat map, if the map has the key. -/
def stat_at (t : call_tree_t) (key : String) : Option stat_value_t :=
  match t.stats.find? (fun e => e.1 == key) with
  | none => none
  | some e => some e.2

/-- The value that the last `add_stat` of a sequence of calls stored under
`key`, if the sequence has such a call. -/
def last_added (key : String) : List arena_op → Option stat_value_t
  | [] => none
  | op :: rest =>
    match last_added key rest with
    | some v => some v
    | none =>
      match op with
      | .add_stat k v => if k = key then some v else none
      | _ => none

/-- All child pointers stored in the arena, node by node and link by link. -/
def child_pointers (t : call_tree_t) : List Nat :=
  t.nodes.flatMap (fun nd => nd.links.map Prod.snd)

/-- The tree shape of an arena: every link of node `i` leads to a node of the
arena with an index above `i`, and every index from 1 on is the child pointer
of exactly one link of the arena. -/
def tree_shaped (t : call_tree_t) : Prop :=
  (∀ i, i < t.nodes.length → ∀ l ∈ links_at t i, i < l.2 ∧ l.2 < t.nodes.length) ∧
    ∀ j, 1 ≤ j → j < t.nodes.length → (child_pointers t).count j = 1

/-- Every link of the arena carries the action code of the node it leads to. -/
def link_codes_agree (t : call_tree_t) : Prop :=
  ∀ i, i < t.nodes.length → ∀ l ∈ links_at t i, code_at t l.2 = some l.1

instance (t : call_tree_t) : Decidable (tree_shaped t) := by
  unfold tree_shaped; infer_instance

instance (t : call_tree_t) : Decidable (link_codes_agree t) := by
  unfold link_codes_agree; infer_instance

/-- Nodes that a merge creates for a list of source links: one per link, and
those that `recurse` counts under its child. -/
def count_links (recurse : Nat → Nat) : List (Int × Nat) → Nat
  | [] => 0
  | (_, child) :: rest => 1 + recurse child + count_links recurse rest

/-- The number of nodes below node `node` of an arena, every path from `node`
counted, down to depth `fuel`. -/
def count_under (t : call_tree_t) : Nat → Nat → Nat
  | 0, _ => 0
  | fuel + 1, node => count_links (count_under t fuel) (links_at t node)

/-- The codes that a merge hands to `add_new_link` for a list of source
links are valid in the registry, and so are those that `recurse` answers for
under each child. -/
def valid_links (acts : actions_set_t) (recurse : Nat → Bool) : List (Int × Nat) → Bool
  | [] => true
  | (action_code, child) :: rest =>
    acts.code_is_valid action_code && recurse child && valid_links acts recurse rest

/-- Every link code that a merge meets below node `node` of an arena, down
to depth `fuel`, is valid in the registry. -/
def valid_under (acts : actions_set_t) (t : call_tree_t) : Nat → Nat → Bool
  | 0, _ => true
  | fuel + 1, node => valid_links acts (valid_under acts t fuel) (links_at t node)

/-- A sequence of calls in which nodes are created by `add_new_link` only,
always with the registry `acts`: it has no merge, and every `add_new_link`
carries `acts`. -/
def nodes_from_add_new_link (acts : actions_set_t) : List arena_op → Bool
  | [] => true
  | .add_new_link a _ _ :: rest => decide (a = acts) && nodes_from_add_new_link acts rest
  | .merge_into _ _ _ _ :: _ => false
  | _ :: rest => nodes_from_add_new_link acts rest

/-! ## Worked arenas -/

/-- A registry with the sentinel -1 and the names `read` (code 0) and
`parse` (code 1). -/
def demo_acts : actions_set_t := { NO_ACTION := -1, actions_names := ["read", "parse"] }

/-- A source arena: root → read[10,25] → parse[12,20], and a second child
parse[30,31] of the root. -/
def demo_source : call_tree_t :=
  { root := 0
    nodes := [ { action_code := -1, start_time := 0, stop_time := 0, links := [(0, 1), (1, 3)] },
               { action_code := 0, start_time := 10, stop_time := 25, links := [(1, 2)] },
               { action_code := 1, start_time := 12, stop_time := 20, links := [] },
               { action_code := 1, start_time := 30, stop_time := 31, links := [] } ]
    stats := [] }

/-- A target arena whose root already has a child with code 0. -/
def demo_target : call_tree_t :=
  { root := 0
    nodes := [ { action_code := -1, start_time := 0, stop_time := 0, links := [(0, 1)] },
               { action_code := 0, start_time := 5, stop_time := 7, links := [] } ]
    stats := [("host", stat_value_t.string_value "a")] }

/-- A sequence of calls on a fresh arena: the scenario of the spec (enter
`read` at 10, enter `parse` at 12, leave at 20 and at 25), an entry with a
code that is not registered, a stat, and a merge of `demo_source` at the root. -/
def demo_ops : List arena_op :=
  [ .add_new_link demo_acts 0 0, .set_node_start_time 1 10,
    .add_new_link demo_acts 1 1, .set_node_start_time 2 12,
    .set_node_stop_time 2 20, .set_node_stop_time 1 25,
    .add_new_link demo_acts 0 7, .find_link demo_acts 0 0,
    .add_stat "host" (stat_value_t.string_value "a"),
    .merge_into demo_acts 4 demo_source 0 ]

/-- The arena that `demo_ops` builds. -/
def demo_built : call_tree_t :=
  { root := 0
    nodes := [ { action_code := -1, start_time := 0, stop_time := 0,
                 links := [(0, 1), (0, 3), (1, 5)] },
               { action_code := 0, start_time := 10, stop_time := 25, links := [(1, 2)] },
               { action_code := 1, start_time := 12, stop_time := 20, links := [] },
               { action_code := 0, start_time := 10, stop_time := 25, links := [(1, 4)] },
               { action_code := 1, start_time := 12, stop_time := 20, links := [] },
               { action_code := 1, start_time := 30, stop_time := 31, links := [] } ]
    stats := [("host", stat_value_t.string_value "a")] }

/-- The arena that merging `demo_source` into the root of `demo_target` gives. -/
def demo_merged : call_tree_t :=
  { root := 0
    nodes := [ { action_code := -1, start_time := 0, stop_time := 0,
                 links := [(0, 1), (0, 2), (1, 4)] },
               { action_code := 0, start_time := 5, stop_time := 7, links := [] },
               { action_code := 0, start_time := 10, stop_time := 25, links := [(1, 3)] },
               { action_code := 1, start_time := 12, stop_time := 20, links := [] },
               { action_code := 1, start_time := 30, stop_time := 31, links := [] } ]
    stats := [("host", stat_value_t.string_value "a")] }

/-- The scenario of the spec on a fresh arena: `read` entered at 10, `parse`
entered inside it at 12 and left at 20, `read` left at 25. -/
def demo_scenario_ops : List arena_op :=
  [ .add_new_link demo_acts 0 0, .set_node_start_time 1 10,
    .add_new_link demo_acts 1 1, .set_node_start_time 2 12,
    .set_node_stop_time 2 20, .set_node_stop_time 1 25 ]

/-- The arena of the scenario: root → read[10,25] → parse[12,20]. -/
def demo_scenario : call_tree_t :=
  { root := 0
    nodes := [ { action_code := -1, start_time := 0, stop_time := 0, links := [(0, 1)] },
               { action_code := 0, start_time := 10, stop_time := 25, links := [(1, 2)] },
               { action_code := 1, start_time := 12, stop_time := 20, links := [] } ]
    stats := [] }

/-- A registry that holds the name `read` only: code 1 is not valid in it. -/
def demo_small_acts : actions_set_t := { NO_ACTION := -1, actions_names := ["read"] }

/-- The target as a merge of `demo_source` under `demo_small_acts` leaves it:
the first link of the source root and its child are in, with the times of the
child, and the call stopped at the link with code 1 below that child. -/
def demo_stopped : call_tree_t :=
  { root := 0
    nodes := [ { action_code := -1, start_time := 0, stop_time := 0, links := [(0, 1), (0, 2)] },
               { action_code := 0, start_time := 5, stop_time := 7, links := [] },
               { action_code := 0, start_time := 10, stop_time := 25, links := [] } ]
    stats := [("host", stat_value_t.string_value "a")] }

theorem links_at_of_get {t : call_tree_t} {i : Nat} {nd : node_t} (h : t.nodes[i]? = some nd) :
    links_at t i = nd.links := by
  simp [links_at, h]

theorem get_of_lt {t : call_tree_t} {i : Nat} (h : i < t.nodes.length) :
    ∃ nd, t.nodes[i]? = some nd := by
  exact ⟨t.nodes[i], List.getElem?_eq_getElem h⟩

/-- C1. For a node `n` inside the arena and a valid action code `c`,
`find_link(n, c)` returns the child pointer of the last link of `n` whose code
is `c`: whenever the links of `n` split as `pre ++ (c, p) :: post` with no
link of code `c` in `post`, the value is `p`.  When no link of `n` has code
`c` the value is `NO_NODE`.  The arena is handed back as it was. -/
theorem find_link_returns_last_match (acts : actions_set_t) (t : call_tree_t) (n : Nat) (c : Int)
    (hn : n < t.nodes.length) (hc : acts.code_is_valid c = true) :
    (∀ pre p post, links_at t n = pre ++ (c, p) :: post → (∀ l ∈ post, l.1 ≠ c) →
        find_link acts t n c = (.ok p, t)) ∧
    ((∀ l ∈ links_at t n, l.1 ≠ c) → find_link acts t n c = (.ok NO_NODE, t)) := by
  obtain ⟨nd, hnd⟩ := get_of_lt hn
  rw [links_at_of_get hnd]
  constructor
  · intro pre p post hl hpost
    have hnone : List.find? (fun v : Int × Nat => v.1 == c) post.reverse = none := by
      rw [List.find?_eq_none]
      intro x hx
      have := hpost x (List.mem_reverse.mp hx)
      simpa using this
    simp [find_link, hc, hnd, hl, List.find?_append, hnone]
  · intro hno
    have hnone : List.find? (fun v : Int × Nat => v.1 == c) nd.links.reverse = none := by
      rw [List.find?_eq_none]
      intro x hx
      have := hno x (List.mem_reverse.mp hx)
      simpa using this
    simp [find_link, hc, hnd, hnone]

/-- Witness for C1: the root of `demo_built` has the links (0,1), (0,3),
(1,5); the search for code 0 passes the newer link (1,5) and returns 3, the
child of the later of the two links with code 0, not 1.  Node 1 has the one
link (1,2), so the search for code 0 there returns `NO_NODE`. -/
theorem find_link_returns_last_match_witness :
    links_at demo_built 0 = [(0, 1), (0, 3), (1, 5)] ∧
    find_link demo_acts demo_built 0 0 = (.ok 3, demo_built) ∧
    links_at demo_built 1 = [(1, 2)] ∧
    find_link demo_acts demo_built 1 0 = (.ok NO_NODE, demo_built) :=
  ⟨by decide,
   (find_link_returns_last_match demo_acts demo_built 0 0 (by decide) (by decide)).1
     [(0, 1)] 3 [(1, 5)] (by decide) (by decide),
   by decide,
   (find_link_returns_last_match demo_acts demo_built 1 0 (by decide) (by decide)).2
     (by decide)⟩

theorem add_new_link_eq {acts : actions_set_t} {t : call_tree_t} {n : Nat} {c : Int} {nd : node_t}
    (hnd : t.nodes[n]? = some nd) (hc : acts.code_is_valid c = true) :
    add_new_link acts t n c =
      (.ok t.nodes.length,
        { t with nodes := t.nodes.set n { nd with links := nd.links ++ [(c, t.nodes.length)] }
                    ++ [node_t.new c] }) := by
  have hn : n < t.nodes.length := by
    rcases Nat.lt_or_ge n t.nodes.length with h | h
    · exact h
    · rw [List.getElem?_eq_none h] at hnd; cases hnd
  have h1 : (t.nodes ++ [node_t.new c])[n]? = some nd := by
    rw [List.getElem?_append_left hn]; exact hnd
  simp [add_new_link, hc, new_node, h1, List.set_append, hn]

theorem get_add_new_link_self {t : call_tree_t} {n : Nat} {c : Int} {nd : node_t}
    (hnd : t.nodes[n]? = some nd) :
    (t.nodes.set n { nd with links := nd.links ++ [(c, t.nodes.length)] } ++ [node_t.new c])[n]?
      = some { nd with links := nd.links ++ [(c, t.nodes.length)] } := by
  have hn : n < t.nodes.length := by
    rcases Nat.lt_or_ge n t.nodes.length with h | h
    · exact h
    · rw [List.getElem?_eq_none h] at hnd; cases hnd
  have : n < (t.nodes.set n { nd with links := nd.links ++ [(c, t.nodes.length)] }).length := by
    simpa using hn
  rw [List.getElem?_append_left this]
  simp [List.getElem?_set, hn]

/-- C2. For a node `n` inside the arena and a valid action code `c`,
`add_new_link(n, c)` returns a pointer `p`, and `find_link(n, c)` on the arena
that the call leaves returns that same `p`.  Nothing is assumed about the
links `n` had before, so older links with code `c` do not matter. -/
theorem find_link_after_add_new_link (acts : actions_set_t) (t : call_tree_t) (n : Nat) (c : Int)
    (hn : n < t.nodes.length) (hc : acts.code_is_valid c = true) :
    ∃ p, (add_new_link acts t n c).1 = .ok p ∧
      (find_link acts (add_new_link acts t n c).2 n c).1 = .ok p := by
  obtain ⟨nd, hnd⟩ := get_of_lt hn
  refine ⟨t.nodes.length, ?_, ?_⟩
  · rw [add_new_link_eq hnd hc]
  · rw [add_new_link_eq hnd hc]
    simp [find_link, hc, get_add_new_link_self hnd]

/-- Witness for C2: the root of `demo_target`, which already has a link with code 0. -/
theorem find_link_after_add_new_link_witness :
    ∃ p, (add_new_link demo_acts demo_target 0 0).1 = .ok p ∧
      (find_link demo_acts (add_new_link demo_acts demo_target 0 0).2 0 0).1 = .ok p :=
  find_link_after_add_new_link demo_acts demo_target 0 0 (by decide) (by decide)

theorem add_new_link_not_valid {acts : actions_set_t} {t : call_tree_t} {n : Nat} {c : Int}
    (hc : acts.code_is_valid c = false) :
    add_new_link acts t n c = (.error .invalid_argument, t) := by
  simp [add_new_link, hc]

/-- C4. When the action code `c` is not valid, `add_new_link(n, c)` ends with
the invalid-argument error, for any node `n`, and the arena it leaves is the
arena it was given: same nodes, same fields, same links. -/
theorem add_new_link_invalid_code (acts : actions_set_t) (t : call_tree_t) (n : Nat) (c : Int)
    (hc : acts.code_is_valid c = false) :
    add_new_link acts t n c = (.error .invalid_argument, t) := by
  simp [add_new_link, hc]

/-- Witness for C4: code 2, which `demo_acts` (two names) does not hold. -/
theorem add_new_link_invalid_code_witness :
    add_new_link demo_acts demo_target 0 2 = (.error .invalid_argument, demo_target) :=
  add_new_link_invalid_code demo_acts demo_target 0 2 (by decide)

/-- C3. On an arena of `N` nodes, for `n < N` and a valid action code `c`,
`add_new_link(n, c)` returns `N`; the arena then holds `N + 1` nodes; node `N`
has action code `c`, start time 0, stop time 0 and no links; and the links of
`n` are its previous links followed by `(c, N)`.  Nothing is assumed about the
previous links of `n`: a node is created also when one of them has code `c`. -/
theorem add_new_link_appends (acts : actions_set_t) (t : call_tree_t) (n : Nat) (c : Int)
    (hn : n < t.nodes.length) (hc : acts.code_is_valid c = true) :
    (add_new_link acts t n c).1 = .ok t.nodes.length ∧
    (add_new_link acts t n c).2.nodes.length = t.nodes.length + 1 ∧
    (add_new_link acts t n c).2.nodes[t.nodes.length]? =
      some { action_code := c, start_time := 0, stop_time := 0, links := [] } ∧
    links_at (add_new_link acts t n c).2 n = links_at t n ++ [(c, t.nodes.length)] := by
  obtain ⟨nd, hnd⟩ := get_of_lt hn
  rw [add_new_link_eq hnd hc]
  refine ⟨rfl, ?_, ?_, ?_⟩
  · simp
  · simp [List.getElem?_append_right, node_t.new]
  · simp only [links_at, get_add_new_link_self hnd, hnd]

/-- Witness for C3: the root of `demo_target` (two nodes, one link with code 0) and
code 0. -/
theorem add_new_link_appends_witness :
    (add_new_link demo_acts demo_target 0 0).1 = .ok 2 ∧
    (add_new_link demo_acts demo_target 0 0).2.nodes.length = 2 + 1 ∧
    (add_new_link demo_acts demo_target 0 0).2.nodes[2]? =
      some { action_code := 0, start_time := 0, stop_time := 0, links := [] } ∧
    links_at (add_new_link demo_acts demo_target 0 0).2 0 = links_at demo_target 0 ++ [(0, 2)] :=
  add_new_link_appends demo_acts demo_target 0 0 (by decide) (by decide)

theorem lt_of_get {t : call_tree_t} {i : Nat} {nd : node_t} (h : t.nodes[i]? = some nd) :
    i < t.nodes.length := by
  rcases Nat.lt_or_ge i t.nodes.length with h1 | h1
  · exact h1
  · rw [List.getElem?_eq_none h1] at h; cases h

theorem code_at_congr {a b : call_tree_t} {i j : Nat} (h : b.nodes[i]? = a.nodes[j]?) :
    code_at b i = code_at a j := by
  simp only [code_at, h]

theorem links_at_congr {a b : call_tree_t} {i j : Nat} (h : b.nodes[i]? = a.nodes[j]?) :
    links_at b i = links_at a j := by
  simp only [links_at, h]

theorem times_at_congr {a b : call_tree_t} {i j : Nat} (h : b.nodes[i]? = a.nodes[j]?) :
    times_at b i = times_at a j := by
  simp only [times_at, h]

theorem grown_at_refl {a : call_tree_t} {r : Nat} (hr : r < a.nodes.length) : grown_at a a r := by
  obtain ⟨nd, hnd⟩ := get_of_lt hr
  refine ⟨rfl, rfl, le_refl _, fun _ _ _ => rfl, ⟨nd, [], nd.start_time, nd.stop_time, hnd, ?_, ?_⟩, ?_⟩
  · simpa using hnd
  · intro l hl; cases hl
  · intro j h1 h2; omega

theorem grown_at_trans {a b c : call_tree_t} {r : Nat} (h1 : grown_at a b r) (h2 : grown_at b c r) :
    grown_at a c r := by
  obtain ⟨nd, add1, st1, sp1, ha, hb, hadd1⟩ := h1.target
  obtain ⟨nd', add2, st2, sp2, hb', hc, hadd2⟩ := h2.target
  rw [hb] at hb'
  cases hb'
  have hr : r < a.nodes.length := lt_of_get ha
  refine ⟨h2.root_eq.trans h1.root_eq, h2.stats_eq.trans h1.stats_eq,
    le_trans h1.length_le h2.length_le, ?_, ?_, ?_⟩
  · intro i hi hne
    rw [h2.others i (lt_of_lt_of_le hi h1.length_le) hne, h1.others i hi hne]
  · refine ⟨nd, add1 ++ add2, st2, sp2, ha, ?_, ?_⟩
    · simpa [List.append_assoc] using hc
    · intro l hl
      rcases List.mem_append.mp hl with h | h
      · obtain ⟨p, q, s⟩ := hadd1 l h
        have hne : l.2 ≠ r := by omega
        exact ⟨p, lt_of_lt_of_le q h2.length_le, (code_at_congr (h2.others l.2 q hne)).trans s⟩
      · obtain ⟨p, q, s⟩ := hadd2 l h
        exact ⟨le_trans h1.length_le p, q, s⟩
  · intro j hj hjc l hl
    by_cases hjb : j < b.nodes.length
    · have hne : j ≠ r := by omega
      rw [links_at_congr (h2.others j hjb hne)] at hl
      obtain ⟨p, q, s⟩ := h1.fresh j hj hjb l hl
      have hne2 : l.2 ≠ r := by omega
      exact ⟨p, lt_of_lt_of_le q h2.length_le, (code_at_congr (h2.others l.2 q hne2)).trans s⟩
    · exact h2.fresh j (not_lt.mp hjb) hjc l hl

/-- The tree that `add_new_link` leaves when it returns. -/
theorem get_add_new_link_other {t : call_tree_t} {n i : Nat} {c : Int} {nd : node_t}
    (hi : i < t.nodes.length) (hne : i ≠ n) :
    (t.nodes.set n { nd with links := nd.links ++ [(c, t.nodes.length)] } ++ [node_t.new c])[i]?
      = t.nodes[i]? := by
  have : i < (t.nodes.set n { nd with links := nd.links ++ [(c, t.nodes.length)] }).length := by
    simpa using hi
  rw [List.getElem?_append_left this]
  simp [List.getElem?_set, hne.symm]

theorem get_add_new_link_new {t : call_tree_t} {n : Nat} {c : Int} {nd : node_t} :
    (t.nodes.set n { nd with links := nd.links ++ [(c, t.nodes.length)] } ++ [node_t.new c])[t.nodes.length]?
      = some (node_t.new c) := by
  simp [List.getElem?_append_right]

theorem grown_at_child {a a2 : call_tree_t} {r : Nat} {c : Int} {nd : node_t}
    (hnd : a.nodes[r]? = some nd)
    (h : grown_at { a with nodes := a.nodes.set r { nd with links := nd.links ++ [(c, a.nodes.length)] }
                    ++ [node_t.new c] } a2 a.nodes.length) :
    grown_at a a2 r ∧ times_at a2 r = times_at a r := by
  have hr : r < a.nodes.length := lt_of_get hnd
  have hne : r ≠ a.nodes.length := Nat.ne_of_lt hr
  have hlen := h.length_le
  simp only [List.length_append, List.length_set, List.length_singleton] at hlen
  have hoth : ∀ i, i < a.nodes.length → i ≠ r → a2.nodes[i]? = a.nodes[i]? := by
    intro i hi hir
    have := h.others i (by simp; omega) (Nat.ne_of_lt hi)
    rw [this]
    exact get_add_new_link_other hi hir
  have hself : a2.nodes[r]? = some { nd with links := nd.links ++ [(c, a.nodes.length)] } := by
    have := h.others r (by simp; omega) hne
    rw [this]
    exact get_add_new_link_self hnd
  obtain ⟨ndN, added, st, sp, hN, hN2, hadded⟩ := h.target
  have hN' : ndN = node_t.new c := by
    have := @get_add_new_link_new a r c nd
    simp only at hN
    rw [this] at hN
    exact (Option.some.inj hN).symm
  subst hN'
  have hcodeN : code_at a2 a.nodes.length = some c := by
    simp [code_at, hN2, node_t.new]
  refine ⟨⟨h.root_eq, h.stats_eq, by omega, hoth, ?_, ?_⟩, ?_⟩
  · refine ⟨nd, [(c, a.nodes.length)], nd.start_time, nd.stop_time, hnd, hself, ?_⟩
    intro l hl
    simp only [List.mem_singleton] at hl
    subst hl
    exact ⟨le_refl _, by omega, hcodeN⟩
  · intro j hj hj2 l hl
    rcases Nat.eq_or_lt_of_le hj with e | e
    · subst e
      simp only [links_at, hN2, node_t.new, List.nil_append] at hl
      obtain ⟨p, q, s⟩ := hadded l hl
      simp only [List.length_append, List.length_set, List.length_singleton] at p
      exact ⟨by omega, q, s⟩
    · exact h.fresh j (by simp; omega) hj2 l hl
  · simp [times_at, hself, hnd]

theorem grown_at_retime {a : call_tree_t} {r : Nat} {nd : node_t} (start stop : Int)
    (hnd : a.nodes[r]? = some nd) :
    grown_at a { a with nodes := a.nodes.set r { nd with start_time := start, stop_time := stop } } r := by
  have hr : r < a.nodes.length := lt_of_get hnd
  refine ⟨rfl, rfl, by simp, ?_, ⟨nd, [], start, stop, hnd, ?_, ?_⟩, ?_⟩
  · intro i _ hne
    simp [List.getElem?_set, hne.symm]
  · simp [List.getElem?_set, hr]
  · intro l hl; cases hl
  · intro j h1 h2
    simp only [List.length_set] at h2
    omega

theorem set_node_start_time_grown {a b : call_tree_t} {r : Nat} {time : Int} {res : Except fault Unit}
    (hr : r < a.nodes.length) (h : set_node_start_time a r time = (res, b)) :
    res = .ok () ∧ grown_at a b r := by
  obtain ⟨nd, hnd⟩ := get_of_lt hr
  simp only [set_node_start_time, hnd, Prod.mk.injEq] at h
  obtain ⟨h1, h2⟩ := h
  subst h2
  exact ⟨h1.symm, grown_at_retime time nd.stop_time hnd⟩

theorem set_node_stop_time_grown {a b : call_tree_t} {r : Nat} {time : Int} {res : Except fault Unit}
    (hr : r < a.nodes.length) (h : set_node_stop_time a r time = (res, b)) :
    res = .ok () ∧ grown_at a b r := by
  obtain ⟨nd, hnd⟩ := get_of_lt hr
  simp only [set_node_stop_time, hnd, Prod.mk.injEq] at h
  obtain ⟨h1, h2⟩ := h
  subst h2
  exact ⟨h1.symm, grown_at_retime nd.start_time time hnd⟩

theorem merge_times_grown {lhs a b : call_tree_t} {ln r : Nat} {res : Except fault Unit}
    (hr : r < a.nodes.length) (h : merge_times lhs ln r a = (res, b)) :
    grown_at a b r ∧ b.nodes.length = a.nodes.length ∧ (ln = lhs.root → b = a) := by
  unfold merge_times at h
  by_cases hroot : ln = lhs.root
  · simp only [hroot, bne_self_eq_false, Bool.false_eq_true, if_false, Prod.mk.injEq] at h
    obtain ⟨_, rfl⟩ := h
    exact ⟨grown_at_refl hr, rfl, fun _ => rfl⟩
  · have hb : (ln != lhs.root) = true := by simpa using hroot
    simp only [hb, if_true] at h
    cases hs : get_node_start_time lhs ln with
    | error e =>
      simp only [hs, Prod.mk.injEq] at h
      obtain ⟨_, rfl⟩ := h
      exact ⟨grown_at_refl hr, rfl, fun _ => rfl⟩
    | ok start =>
      simp only [hs] at h
      obtain ⟨nd, hnd⟩ := get_of_lt hr
      simp only [set_node_start_time, hnd] at h
      cases hp : get_node_stop_time lhs ln with
      | error e =>
        simp only [hp, Prod.mk.injEq] at h
        obtain ⟨_, rfl⟩ := h
        exact ⟨grown_at_retime start nd.stop_time hnd, by simp, fun e => absurd e hroot⟩
      | ok stop =>
        simp only [hp] at h
        simp only [set_node_stop_time, List.getElem?_set, hr, if_true, Prod.mk.injEq,
          List.getElem?_eq_getElem, List.set_set, true_and, if_true] at h
        obtain ⟨_, rfl⟩ := h
        exact ⟨grown_at_retime start stop hnd, by simp, fun e => absurd e hroot⟩

theorem merge_links_grown {acts : actions_set_t}
    {recurse : Nat → Nat → call_tree_t → Option (Except fault Unit × call_tree_t)}
    (hrec : ∀ ln rn x res y, rn < x.nodes.length → recurse ln rn x = some (res, y) → grown_at x y rn)
    {r : Nat} (links : List (Int × Nat)) :
    ∀ {a b : call_tree_t} {res : Except fault Unit}, r < a.nodes.length →
      merge_links acts recurse r links a = some (res, b) →
      grown_at a b r ∧ times_at b r = times_at a r := by
  induction links with
  | nil =>
    intro a b res hr h
    simp only [merge_links, Option.some.injEq, Prod.mk.injEq] at h
    obtain ⟨_, rfl⟩ := h
    exact ⟨grown_at_refl hr, rfl⟩
  | cons l rest ih =>
    intro a b res hr h
    obtain ⟨c, ch⟩ := l
    obtain ⟨nd, hnd⟩ := get_of_lt hr
    by_cases hc : acts.code_is_valid c = true
    · simp only [merge_links, add_new_link_eq hnd hc] at h
      cases hq : recurse ch a.nodes.length
          { a with nodes := a.nodes.set r { nd with links := nd.links ++ [(c, a.nodes.length)] }
                    ++ [node_t.new c] } with
      | none => simp [hq] at h
      | some p =>
        obtain ⟨res2, a2⟩ := p
        have hg := hrec _ _ _ _ _ (by simp) hq
        obtain ⟨hg1, ht1⟩ := grown_at_child hnd hg
        cases res2 with
        | error e =>
          simp only [hq, Option.some.injEq, Prod.mk.injEq] at h
          obtain ⟨_, rfl⟩ := h
          exact ⟨hg1, ht1⟩
        | ok u =>
          simp only [hq] at h
          obtain ⟨hg2, ht2⟩ := ih (lt_of_lt_of_le hr hg1.length_le) h
          exact ⟨grown_at_trans hg1 hg2, ht2.trans ht1⟩
    · have hc2 : acts.code_is_valid c = false := by simpa using hc
      simp only [merge_links, add_new_link_not_valid hc2, Option.some.injEq,
        Prod.mk.injEq] at h
      obtain ⟨_, rfl⟩ := h
      exact ⟨grown_at_refl hr, rfl⟩

theorem merge_into_node_grown {acts : actions_set_t} {lhs : call_tree_t} (fuel : Nat) :
    ∀ (ln r : Nat) (a : call_tree_t) (res : Except fault Unit) (b : call_tree_t),
      r < a.nodes.length → merge_into_node acts lhs fuel ln r a = some (res, b) → grown_at a b r := by
  induction fuel with
  | zero => intro ln r a res b _ h; simp [merge_into_node] at h
  | succ f ih =>
    intro ln r a res b hr h
    simp only [merge_into_node] at h
    cases ht : merge_times lhs ln r a with
    | mk res1 a1 =>
      obtain ⟨hg1, hlen, _⟩ := merge_times_grown hr ht
      cases res1 with
      | error e =>
        simp only [ht, Option.some.injEq, Prod.mk.injEq] at h
        obtain ⟨_, rfl⟩ := h
        exact hg1
      | ok u =>
        simp only [ht] at h
        cases hl : get_node_links lhs ln with
        | error e =>
          simp only [hl, Option.some.injEq, Prod.mk.injEq] at h
          obtain ⟨_, rfl⟩ := h
          exact hg1
        | ok links =>
          simp only [hl] at h
          exact grown_at_trans hg1 (merge_links_grown ih links (by omega) h).1

theorem merge_into_grown {acts : actions_set_t} {lhs a b : call_tree_t} {fuel r : Nat}
    {res : Except fault Unit} (hr : r < a.nodes.length)
    (h : merge_into acts fuel lhs r a = some (res, b)) :
    grown_at a b r ∧ times_at b r = times_at a r := by
  unfold merge_into at h
  cases fuel with
  | zero => simp [merge_into_node] at h
  | succ f =>
    simp only [merge_into_node] at h
    cases ht : merge_times lhs lhs.root r a with
    | mk res1 a1 =>
      obtain ⟨_, _, he⟩ := merge_times_grown hr ht
      have := he rfl
      subst this
      cases res1 with
      | error e =>
        simp only [ht, Option.some.injEq, Prod.mk.injEq] at h
        obtain ⟨_, rfl⟩ := h
        exact ⟨grown_at_refl hr, rfl⟩
      | ok u =>
        simp only [ht] at h
        cases hl : get_node_links lhs lhs.root with
        | error e =>
          simp only [hl, Option.some.injEq, Prod.mk.injEq] at h
          obtain ⟨_, rfl⟩ := h
          exact ⟨grown_at_refl hr, rfl⟩
        | ok links =>
          simp only [hl] at h
          exact merge_links_grown (fun ln rn x res y => merge_into_node_grown f ln rn x res y) links hr h

theorem shapes_of_congr {rec1 rec2 : Nat → Option shape} (links : List (Int × Nat)) :
    ∀ ss, (∀ l ∈ links, ∀ s, rec1 l.2 = some s → rec2 l.2 = some s) →
      shapes_of rec1 links = some ss → shapes_of rec2 links = some ss := by
  induction links with
  | nil => intro ss _ h; simpa [shapes_of] using h
  | cons l rest ih =>
    intro ss hl h
    obtain ⟨c, ch⟩ := l
    cases h1 : rec1 ch with
    | none => simp [shapes_of, h1] at h
    | some s =>
      cases h2 : shapes_of rec1 rest with
      | none => simp [shapes_of, h1, h2] at h
      | some ss2 =>
        have e1 := hl (c, ch) (List.mem_cons_self _ _) s h1
        have e2 := ih ss2 (fun l hm => hl l (List.mem_cons_of_mem _ hm)) h2
        simp only [shapes_of, h1, h2] at h
        simp only [shapes_of, e1, e2]
        exact h

theorem shapes_of_exists {recurse : Nat → Option shape} (links : List (Int × Nat)) :
    (∀ l ∈ links, ∃ s, recurse l.2 = some s) → ∃ ss, shapes_of recurse links = some ss := by
  induction links with
  | nil => intro _; exact ⟨[], rfl⟩
  | cons l rest ih =>
    intro hl
    obtain ⟨c, ch⟩ := l
    obtain ⟨s, hs⟩ := hl (c, ch) (List.mem_cons_self _ _)
    obtain ⟨ss, hss⟩ := ih (fun l hm => hl l (List.mem_cons_of_mem _ hm))
    exact ⟨(c, s) :: ss, by simp [shapes_of, hs, hss]⟩

theorem shapes_of_cons_some {recurse : Nat → Option shape} {c : Int} {ch : Nat}
    {rest : List (Int × Nat)} {ss : List (Int × shape)}
    (h : shapes_of recurse ((c, ch) :: rest) = some ss) :
    ∃ s ss2, recurse ch = some s ∧ shapes_of recurse rest = some ss2 ∧ ss = (c, s) :: ss2 := by
  cases h1 : recurse ch with
  | none => simp [shapes_of, h1] at h
  | some s =>
    cases h2 : shapes_of recurse rest with
    | none => simp [shapes_of, h1, h2] at h
    | some ss2 =>
      simp only [shapes_of, h1, h2, Option.some.injEq] at h
      exact ⟨s, ss2, rfl, rfl, h.symm⟩

theorem shape_of_succ_some {t : call_tree_t} {f i : Nat} {s : shape}
    (h : shape_of t (f + 1) i = some s) :
    ∃ nd ss, t.nodes[i]? = some nd ∧ shapes_of (shape_of t f) nd.links = some ss ∧
      s = shape.mk nd.action_code nd.start_time nd.stop_time ss := by
  cases h1 : t.nodes[i]? with
  | none => simp [shape_of, h1] at h
  | some nd =>
    cases h2 : shapes_of (shape_of t f) nd.links with
    | none => simp [shape_of, h1, h2] at h
    | some ss =>
      simp only [shape_of, h1, h2, Option.some.injEq] at h
      exact ⟨nd, ss, rfl, h2, h.symm⟩

theorem shape_of_succ_eq {t : call_tree_t} {f i : Nat} {nd : node_t} {ss : List (Int × shape)}
    (h1 : t.nodes[i]? = some nd) (h2 : shapes_of (shape_of t f) nd.links = some ss) :
    shape_of t (f + 1) i = some (shape.mk nd.action_code nd.start_time nd.stop_time ss) := by
  simp only [shape_of, h1, h2]

/-- A shape read off above `lo` is still there in an arena that has the same
nodes from `lo` on, when those nodes link to `lo` or later only. -/
theorem shape_of_stable {a b : call_tree_t} {lo : Nat}
    (hsame : ∀ j, lo ≤ j → j < a.nodes.length → b.nodes[j]? = a.nodes[j]?)
    (hfwd : ∀ j, lo ≤ j → j < a.nodes.length → ∀ l ∈ links_at a j, lo ≤ l.2) (f : Nat) :
    ∀ i s, lo ≤ i → shape_of a f i = some s → shape_of b f i = some s := by
  induction f with
  | zero => intro i s _ h; simp [shape_of] at h
  | succ f ih =>
    intro i s hi h
    obtain ⟨nd, ss, h1, h2, rfl⟩ := shape_of_succ_some h
    have hlt := lt_of_get h1
    have hb : b.nodes[i]? = some nd := (hsame i hi hlt).trans h1
    refine shape_of_succ_eq hb (shapes_of_congr nd.links ss ?_ h2)
    intro l hl s hs
    exact ih l.2 s (hfwd i hi hlt l (by rw [links_at_of_get h1]; exact hl)) hs

theorem shape_of_succ {t : call_tree_t} (f : Nat) :
    ∀ i s, shape_of t f i = some s → shape_of t (f + 1) i = some s := by
  induction f with
  | zero => intro i s h; simp [shape_of] at h
  | succ f ih =>
    intro i s h
    obtain ⟨nd, ss, h1, h2, rfl⟩ := shape_of_succ_some h
    exact shape_of_succ_eq h1 (shapes_of_congr nd.links ss (fun l _ s hs => ih l.2 s hs) h2)

theorem shape_of_mono {t : call_tree_t} {f g : Nat} (hfg : f ≤ g) {i : Nat} {s : shape}
    (h : shape_of t f i = some s) : shape_of t g i = some s := by
  induction hfg with
  | refl => exact h
  | step _ ih => exact shape_of_succ _ _ _ ih

theorem well_formed_link {t : call_tree_t} (hwf : well_formed t) {i : Nat} {nd : node_t}
    (hnd : t.nodes[i]? = some nd) {l : Int × Nat} (hl : l ∈ nd.links) :
    i < l.2 ∧ l.2 < t.nodes.length ∧ l.2 ≠ t.root ∧ code_at t l.2 = some l.1 := by
  obtain ⟨h0, _, h⟩ := hwf
  obtain ⟨p, q⟩ := h i (lt_of_get hnd) l (by rw [links_at_of_get hnd]; exact hl)
  refine ⟨p, ?_, by omega, q⟩
  rcases Nat.lt_or_ge l.2 t.nodes.length with h1 | h1
  · exact h1
  · simp [code_at, List.getElem?_eq_none h1] at q

theorem shape_of_exists {t : call_tree_t} (hwf : well_formed t) (f : Nat) :
    ∀ i, i < t.nodes.length → t.nodes.length - i ≤ f → ∃ s, shape_of t f i = some s := by
  induction f with
  | zero => intro i h1 h2; omega
  | succ f ih =>
    intro i h1 h2
    obtain ⟨nd, hnd⟩ := get_of_lt h1
    have : ∃ ss, shapes_of (shape_of t f) nd.links = some ss := by
      apply shapes_of_exists
      intro l hl
      obtain ⟨p, q, _⟩ := well_formed_link hwf hnd hl
      exact ih l.2 q (by omega)
    obtain ⟨ss, hss⟩ := this
    exact ⟨_, shape_of_succ_eq hnd hss⟩

theorem links_at_child {a a2 : call_tree_t} {r : Nat} {c : Int} {nd : node_t}
    (hnd : a.nodes[r]? = some nd)
    (h : grown_at { a with nodes := a.nodes.set r { nd with links := nd.links ++ [(c, a.nodes.length)] }
                    ++ [node_t.new c] } a2 a.nodes.length) :
    links_at a2 r = links_at a r ++ [(c, a.nodes.length)] := by
  have hr : r < a.nodes.length := lt_of_get hnd
  have := h.others r (by simp; omega) (Nat.ne_of_lt hr)
  rw [links_at_congr this]
  simp only [links_at, get_add_new_link_self hnd, hnd]

theorem grown_at_code_eq {a b : call_tree_t} {r : Nat} (h : grown_at a b r) :
    code_at b r = code_at a r := by
  obtain ⟨nd, added, st, sp, ha, hb, _⟩ := h.target
  simp [code_at, ha, hb]

theorem grown_at_forward {x y : call_tree_t} {m : Nat} (h : grown_at x y m)
    (hlast : m + 1 = x.nodes.length) (hnil : links_at x m = []) :
    ∀ j, m ≤ j → j < y.nodes.length → ∀ l ∈ links_at y j, m ≤ l.2 := by
  intro j hj hjy l hl
  rcases Nat.eq_or_lt_of_le hj with e | e
  · subst e
    obtain ⟨nd, added, st, sp, hx, hy, hadd⟩ := h.target
    simp only [links_at, hx] at hnil
    simp only [links_at, hy, hnil, List.nil_append] at hl
    have := (hadd l hl).1
    omega
  · have := (h.fresh j (by omega) hjy l hl).1
    omega

theorem merge_links_copies {acts : actions_set_t} {lhs : call_tree_t}
    {recurse : Nat → Nat → call_tree_t → Option (Except fault Unit × call_tree_t)} {f r : Nat}
    (hgrown : ∀ ln rn x res y, rn < x.nodes.length → recurse ln rn x = some (res, y) → grown_at x y rn)
    (links : List (Int × Nat)) :
    (∀ l ∈ links, ∀ s, shape_of lhs f l.2 = some s →
        ∀ x m, x.nodes[m]? = some (node_t.new l.1) → m + 1 = x.nodes.length →
        ∃ y, recurse l.2 m x = some (.ok (), y) ∧ shape_of y f m = some s) →
    (∀ l ∈ links, acts.code_is_valid l.1 = true) →
    ∀ a ss, r < a.nodes.length → shapes_of (shape_of lhs f) links = some ss →
      ∃ b added, merge_links acts recurse r links a = some (.ok (), b) ∧
        links_at b r = links_at a r ++ added ∧ shapes_of (shape_of b f) added = some ss := by
  induction links with
  | nil =>
    intro _ _ a ss hr h
    simp only [shapes_of, Option.some.injEq] at h
    subst h
    exact ⟨a, [], by simp [merge_links], by simp, by simp [shapes_of]⟩
  | cons l rest ih =>
    intro H hv a ss hr h
    obtain ⟨c, ch⟩ := l
    obtain ⟨s, ss2, hs, hss2, rfl⟩ := shapes_of_cons_some h
    obtain ⟨nd, hnd⟩ := get_of_lt hr
    have hc := hv (c, ch) (List.mem_cons_self _ _)
    obtain ⟨y, hy, hshape⟩ := H (c, ch) (List.mem_cons_self _ _) s hs
      { a with nodes := a.nodes.set r { nd with links := nd.links ++ [(c, a.nodes.length)] }
                    ++ [node_t.new c] } a.nodes.length get_add_new_link_new (by simp)
    have hg := hgrown _ _ _ _ _ (by simp) hy
    obtain ⟨hg1, _⟩ := grown_at_child hnd hg
    have hlinks := links_at_child hnd hg
    have hry : r < y.nodes.length := lt_of_lt_of_le hr hg1.length_le
    obtain ⟨b, added, hb, hbl, hbs⟩ := ih (fun l hm => H l (List.mem_cons_of_mem _ hm))
      (fun l hm => hv l (List.mem_cons_of_mem _ hm)) y ss2 hry hss2
    have hg2 := (merge_links_grown hgrown rest hry hb).1
    refine ⟨b, (c, a.nodes.length) :: added, ?_, ?_, ?_⟩
    · simp only [merge_links, add_new_link_eq hnd hc, hy]
      exact hb
    · rw [hbl, hlinks]; simp
    · have : shape_of b f a.nodes.length = some s := by
        refine @shape_of_stable y b a.nodes.length ?_ ?_ f _ _ (le_refl _) hshape
        · intro j hj hjy
          exact hg2.others j hjy (by omega)
        · exact grown_at_forward hg (by simp) (by simp [links_at, get_add_new_link_new, node_t.new])
      simp [shapes_of, this, hbs]

theorem merge_times_ok {lhs a : call_tree_t} {ln r : Nat} {nd : node_t}
    (hnd : lhs.nodes[ln]? = some nd) (hr : r < a.nodes.length) :
    ∃ a1, merge_times lhs ln r a = (.ok (), a1) ∧ a1.nodes.length = a.nodes.length ∧
      links_at a1 r = links_at a r ∧
      (ln ≠ lhs.root → times_at a1 r = some (nd.start_time, nd.stop_time)) := by
  obtain ⟨ndr, hndr⟩ := get_of_lt hr
  by_cases hroot : ln = lhs.root
  · exact ⟨a, by simp [merge_times, hroot], rfl, rfl, fun h => absurd hroot h⟩
  · have hb : (ln != lhs.root) = true := by simpa using hroot
    refine ⟨call_tree_t.mk a.root
        (a.nodes.set r (node_t.mk ndr.action_code nd.start_time nd.stop_time ndr.links)) a.stats,
      ?_, by simp, ?_, ?_⟩
    · simp [merge_times, hb, get_node_start_time, get_node_stop_time, hnd, set_node_start_time,
        set_node_stop_time, hndr, List.getElem?_set, hr]
    · simp [links_at, hndr, List.getElem?_set, hr]
    · intro _
      simp [times_at, List.getElem?_set, hr]

theorem merge_into_node_step {acts : actions_set_t} {lhs : call_tree_t} {f ln : Nat} {nd : node_t}
    {ss : List (Int × shape)}
    (H : ∀ l ∈ nd.links, ∀ s, shape_of lhs f l.2 = some s →
        ∀ x m, x.nodes[m]? = some (node_t.new l.1) → m + 1 = x.nodes.length →
        ∃ y, merge_into_node acts lhs f l.2 m x = some (.ok (), y) ∧ shape_of y f m = some s)
    (hv : ∀ l ∈ nd.links, acts.code_is_valid l.1 = true)
    (hnd : lhs.nodes[ln]? = some nd) (hss : shapes_of (shape_of lhs f) nd.links = some ss)
    {a : call_tree_t} {r : Nat} (hr : r < a.nodes.length) :
    ∃ b added, merge_into_node acts lhs (f + 1) ln r a = some (.ok (), b) ∧
      links_at b r = links_at a r ++ added ∧ shapes_of (shape_of b f) added = some ss ∧
      (ln ≠ lhs.root → times_at b r = some (nd.start_time, nd.stop_time)) := by
  obtain ⟨a1, ha1, hlen, hlinks, htimes⟩ := merge_times_ok (a := a) hnd hr
  have hr1 : r < a1.nodes.length := by omega
  obtain ⟨b, added, hb, hbl, hbs⟩ :=
    merge_links_copies (fun ln rn x res y => merge_into_node_grown f ln rn x res y)
      nd.links H hv a1 ss hr1 hss
  have ht := (merge_links_grown (fun ln rn x res y => merge_into_node_grown f ln rn x res y)
    nd.links hr1 hb).2
  refine ⟨b, added, ?_, ?_, hbs, ?_⟩
  · simp only [merge_into_node, ha1, get_node_links, hnd]
    exact hb
  · rw [hbl, hlinks]
  · intro h
    rw [ht, htimes h]

theorem merge_into_node_copies {acts : actions_set_t} {lhs : call_tree_t} (hwf : well_formed lhs)
    (hv : codes_valid acts lhs) (f : Nat) :
    ∀ ln nd ss, lhs.nodes[ln]? = some nd → shapes_of (shape_of lhs f) nd.links = some ss →
      ∀ a r, r < a.nodes.length →
      ∃ b added, merge_into_node acts lhs (f + 1) ln r a = some (.ok (), b) ∧
        links_at b r = links_at a r ++ added ∧ shapes_of (shape_of b f) added = some ss ∧
        (ln ≠ lhs.root → times_at b r = some (nd.start_time, nd.stop_time)) := by
  induction f with
  | zero =>
    intro ln nd ss hnd hss a r hr
    refine merge_into_node_step ?_ ?_ hnd hss hr
    · intro l _ s hs
      simp [shape_of] at hs
    · intro l hl
      exact hv ln (lt_of_get hnd) l (by rw [links_at_of_get hnd]; exact hl)
  | succ f ih =>
    intro ln nd ss hnd hss a r hr
    refine merge_into_node_step ?_ ?_ hnd hss hr
    · intro l hl s hs x m hx hlast
      obtain ⟨ndc, ssc, hndc, hssc, rfl⟩ := shape_of_succ_some hs
      obtain ⟨_, _, hnr, hcode⟩ := well_formed_link hwf hnd hl
      have hm : m < x.nodes.length := lt_of_get hx
      obtain ⟨y, added, hy, hyl, hys, hyt⟩ := ih l.2 ndc ssc hndc hssc x m hm
      refine ⟨y, hy, ?_⟩
      have hg := merge_into_node_grown (f + 1) _ _ _ _ _ hm hy
      obtain ⟨ndy, hndy⟩ := get_of_lt (lt_of_lt_of_le hm hg.length_le)
      have h1 : ndy.links = added := by
        have := hyl
        simp only [links_at, hndy, hx, node_t.new, List.nil_append] at this
        exact this
      have h2 : ndy.action_code = ndc.action_code := by
        have := grown_at_code_eq hg
        simp only [code_at, hndy, hx, node_t.new, Option.some.injEq] at this
        simp only [code_at, hndc, Option.some.injEq] at hcode
        rw [this, hcode]
      have h3 := hyt hnr
      simp only [times_at, hndy, Option.some.injEq, Prod.mk.injEq] at h3
      rw [shape_of_succ_eq hndy (by rw [h1]; exact hys), h2, h3.1, h3.2]
    · intro l hl
      exact hv ln (lt_of_get hnd) l (by rw [links_at_of_get hnd]; exact hl)

theorem shape_of_exists_from {t : call_tree_t} {lo : Nat}
    (hfwd : ∀ j, lo ≤ j → j < t.nodes.length → ∀ l ∈ links_at t j, j < l.2 ∧ l.2 < t.nodes.length)
    (f : Nat) :
    ∀ i, lo ≤ i → i < t.nodes.length → t.nodes.length - i ≤ f → ∃ s, shape_of t f i = some s := by
  induction f with
  | zero => intro i _ h1 h2; omega
  | succ f ih =>
    intro i h0 h1 h2
    obtain ⟨nd, hnd⟩ := get_of_lt h1
    have : ∃ ss, shapes_of (shape_of t f) nd.links = some ss := by
      apply shapes_of_exists
      intro l hl
      obtain ⟨p, q⟩ := hfwd i h0 h1 l (by rw [links_at_of_get hnd]; exact hl)
      exact ih l.2 (by omega) q (by omega)
    obtain ⟨ss, hss⟩ := this
    exact ⟨_, shape_of_succ_eq hnd hss⟩

theorem shape_of_unique {t : call_tree_t} {f g i : Nat} {s s2 : shape}
    (h1 : shape_of t f i = some s) (h2 : shape_of t g i = some s2) : s = s2 := by
  have e1 := shape_of_mono (Nat.le_max_left f g) h1
  have e2 := shape_of_mono (Nat.le_max_right f g) h2
  rw [e1] at e2
  exact Option.some.inj e2

theorem shapes_of_forall₂ {rec1 rec2 : Nat → Option shape} (l1 : List (Int × Nat)) :
    ∀ (l2 : List (Int × Nat)) (ss : List (Int × shape)),
      shapes_of rec1 l1 = some ss → shapes_of rec2 l2 = some ss →
      List.Forall₂ (fun n o => n.1 = o.1 ∧ ∃ s, rec1 n.2 = some s ∧ rec2 o.2 = some s) l1 l2 := by
  induction l1 with
  | nil =>
    intro l2 ss h1 h2
    simp only [shapes_of, Option.some.injEq] at h1
    subst h1
    cases l2 with
    | nil => exact List.Forall₂.nil
    | cons o rest =>
      obtain ⟨c, ch⟩ := o
      obtain ⟨_, _, _, _, h⟩ := shapes_of_cons_some h2
      cases h
  | cons n rest ih =>
    intro l2 ss h1 h2
    obtain ⟨c, ch⟩ := n
    obtain ⟨s, ss2, hs, hss2, rfl⟩ := shapes_of_cons_some h1
    cases l2 with
    | nil => simp [shapes_of] at h2
    | cons o rest2 =>
      obtain ⟨c2, ch2⟩ := o
      obtain ⟨s2, ss3, hs2, hss3, h⟩ := shapes_of_cons_some h2
      simp only [List.cons.injEq, Prod.mk.injEq] at h
      obtain ⟨⟨rfl, rfl⟩, rfl⟩ := h
      exact List.Forall₂.cons ⟨rfl, s, hs, hs2⟩ (ih rest2 ss2 hss2 hss3)

/-- C5. For a well-formed source arena `lhs`, whose link codes are all valid
for the target, and a node `t` inside the target arena `rhs`,
`merge_into(t, rhs)` comes back without error (a recursion depth of as many
levels as the source has nodes is enough) and leaves an arena `b` in which the
links of `t` are the old ones followed by `added`, where `added` has one link
per link of the source root, in the same order and with the same codes; the
child of each added link is a node that `rhs` did not hold, and the tree under
it equals the tree under the matching child of the source root (action codes,
start and stop times, number and order of links, link codes, at every depth).
When the links of `rhs` stay inside `rhs`, no added child is a child `t`
already had. -/
theorem merge_into_copies_subtrees (acts : actions_set_t) (lhs rhs : call_tree_t) (t : Nat)
    (hwf : well_formed lhs) (hv : codes_valid acts lhs) (ht : t < rhs.nodes.length) :
    ∃ b added, merge_into acts lhs.nodes.length lhs t rhs = some (.ok (), b) ∧
      links_at b t = links_at rhs t ++ added ∧
      added.length = (links_at lhs lhs.root).length ∧
      List.Forall₂ (fun n o => n.1 = o.1 ∧ rhs.nodes.length ≤ n.2 ∧ n.2 < b.nodes.length ∧
          (subtree lhs o.2).isSome = true ∧ subtree b n.2 = subtree lhs o.2)
        added (links_at lhs lhs.root) ∧
      (links_in_range rhs → ∀ n ∈ added, ∀ o ∈ links_at rhs t, n.2 ≠ o.2) := by
  have hroot : lhs.root = 0 := hwf.1
  have hpos : 0 < lhs.nodes.length := hwf.2.1
  obtain ⟨nd, hnd⟩ := get_of_lt (hroot ▸ hpos : lhs.root < lhs.nodes.length)
  obtain ⟨f, hf⟩ : ∃ f, lhs.nodes.length = f + 1 := ⟨lhs.nodes.length - 1, by omega⟩
  have hfwd : ∀ j, 0 ≤ j → j < lhs.nodes.length → ∀ l ∈ links_at lhs j,
      j < l.2 ∧ l.2 < lhs.nodes.length := by
    intro j _ hj l hl
    obtain ⟨ndj, hndj⟩ := get_of_lt hj
    rw [links_at_of_get hndj] at hl
    obtain ⟨p, q, _⟩ := well_formed_link hwf hndj hl
    exact ⟨p, q⟩
  have hkids : ∃ ss, shapes_of (shape_of lhs f) nd.links = some ss := by
    apply shapes_of_exists
    intro l hl
    obtain ⟨p, q, _⟩ := well_formed_link hwf hnd hl
    exact shape_of_exists_from hfwd f l.2 (Nat.zero_le _) q (by omega)
  obtain ⟨ss, hss⟩ := hkids
  obtain ⟨b, added, hb, hbl, hbs, _⟩ := merge_into_node_copies hwf hv f lhs.root nd ss hnd hss rhs t ht
  have hb2 : merge_into acts lhs.nodes.length lhs t rhs = some (.ok (), b) := by
    rw [hf]; exact hb
  have hg := (merge_into_grown ht hb2).1
  obtain ⟨ndt, added2, st, sp, hndt, hndb, hadded⟩ := hg.target
  have hadd : added2 = added := by
    have := hbl
    simp only [links_at, hndt, hndb] at this
    exact List.append_cancel_left this
  subst hadd
  have hall := shapes_of_forall₂ added2 nd.links ss hbs hss
  have hfresh : ∀ j, rhs.nodes.length ≤ j → j < b.nodes.length → ∀ l ∈ links_at b j,
      j < l.2 ∧ l.2 < b.nodes.length := by
    intro j h1 h2 l hl
    obtain ⟨p, q, _⟩ := hg.fresh j h1 h2 l hl
    exact ⟨p, q⟩
  refine ⟨b, added2, hb2, hbl, ?_, ?_, ?_⟩
  · rw [links_at_of_get hnd]
    exact hall.length_eq
  · rw [links_at_of_get hnd]
    have hcomb := (List.forall₂_and_left _ _).mpr ⟨hadded, hall⟩
    refine List.Forall₂.imp ?_ hcomb
    intro n o hno
    obtain ⟨⟨h1, h2, _⟩, h3, s, hs1, hs2⟩ := hno
    have e1 : subtree lhs o.2 = some s := by
      unfold subtree
      exact shape_of_mono (by omega) hs2
    obtain ⟨s2, hs3⟩ := shape_of_exists_from hfresh b.nodes.length n.2 h1 h2 (by omega)
    have e2 : subtree b n.2 = some s := by
      unfold subtree
      rw [hs3, shape_of_unique hs3 hs1]
    exact ⟨h3, h1, h2, by simp [e1], by rw [e1, e2]⟩
  · intro hin n hn o ho
    have h1 := (hadded n hn).1
    have h2 := hin t ht o ho
    omega

/-- Witness for C5: `demo_source` merged into the root of `demo_target`. -/
theorem merge_into_copies_subtrees_witness :
    ∃ b added, merge_into demo_acts demo_source.nodes.length demo_source 0 demo_target
        = some (.ok (), b) ∧
      links_at b 0 = links_at demo_target 0 ++ added ∧
      added.length = (links_at demo_source demo_source.root).length ∧
      List.Forall₂ (fun n o => n.1 = o.1 ∧ demo_target.nodes.length ≤ n.2 ∧ n.2 < b.nodes.length ∧
          (subtree demo_source o.2).isSome = true ∧ subtree b n.2 = subtree demo_source o.2)
        added (links_at demo_source demo_source.root) ∧
      (links_in_range demo_target → ∀ n ∈ added, ∀ o ∈ links_at demo_target 0, n.2 ≠ o.2) :=
  merge_into_copies_subtrees demo_acts demo_source demo_target 0 (by decide) (by decide)
    (by decide)

theorem merge_into_returns {acts : actions_set_t} {lhs rhs : call_tree_t} {t : Nat}
    (hwf : well_formed lhs) (hv : codes_valid acts lhs) (ht : t < rhs.nodes.length) :
    ∃ b, merge_into acts lhs.nodes.length lhs t rhs = some (.ok (), b) := by
  have hroot : lhs.root = 0 := hwf.1
  have hpos : 0 < lhs.nodes.length := hwf.2.1
  obtain ⟨nd, hnd⟩ := get_of_lt (hroot ▸ hpos : lhs.root < lhs.nodes.length)
  obtain ⟨f, hf⟩ : ∃ f, lhs.nodes.length = f + 1 := ⟨lhs.nodes.length - 1, by omega⟩
  have hfwd : ∀ j, 0 ≤ j → j < lhs.nodes.length → ∀ l ∈ links_at lhs j,
      j < l.2 ∧ l.2 < lhs.nodes.length := by
    intro j _ hj l hl
    obtain ⟨ndj, hndj⟩ := get_of_lt hj
    rw [links_at_of_get hndj] at hl
    obtain ⟨p, q, _⟩ := well_formed_link hwf hndj hl
    exact ⟨p, q⟩
  have hkids : ∃ ss, shapes_of (shape_of lhs f) nd.links = some ss := by
    apply shapes_of_exists
    intro l hl
    obtain ⟨p, q, _⟩ := well_formed_link hwf hnd hl
    exact shape_of_exists_from hfwd f l.2 (Nat.zero_le _) q (by omega)
  obtain ⟨ss, hss⟩ := hkids
  obtain ⟨b, added, hb, _⟩ := merge_into_node_copies hwf hv f lhs.root nd ss hnd hss rhs t ht
  exact ⟨b, by rw [hf]; exact hb⟩

/-- C6. For a node `t` inside the target arena `rhs`: whenever
`merge_into(t, rhs)` comes back, with or without an error, the arena `b` it
leaves has the root pointer and the stat map of `rhs`, at least as many nodes,
every node of `rhs` other than `t` unchanged at its index, and node `t` with
its action code, start time and stop time unchanged and its old links
followed by the added ones.  For a well-formed source with valid codes the
call does come back, without error.  The source is an argument that the call
only reads. -/
theorem merge_into_only_appends (acts : actions_set_t) (lhs rhs : call_tree_t) (t : Nat)
    (ht : t < rhs.nodes.length) :
    (∀ fuel res b, merge_into acts fuel lhs t rhs = some (res, b) →
      b.root = rhs.root ∧ b.stats = rhs.stats ∧ rhs.nodes.length ≤ b.nodes.length ∧
      (∀ i, i < rhs.nodes.length → i ≠ t → b.nodes[i]? = rhs.nodes[i]?) ∧
      ∃ nd added, rhs.nodes[t]? = some nd ∧
        b.nodes[t]? = some { action_code := nd.action_code, start_time := nd.start_time,
                             stop_time := nd.stop_time, links := nd.links ++ added }) ∧
    (well_formed lhs → codes_valid acts lhs →
      ∃ b, merge_into acts lhs.nodes.length lhs t rhs = some (.ok (), b)) := by
  refine ⟨?_, fun hwf hv => merge_into_returns hwf hv ht⟩
  intro fuel res b h
  obtain ⟨hg, htimes⟩ := merge_into_grown ht h
  obtain ⟨nd, added, st, sp, hnd, hb, _⟩ := hg.target
  refine ⟨hg.root_eq, hg.stats_eq, hg.length_le, hg.others, nd, added, hnd, ?_⟩
  simp only [times_at, hnd, hb, Option.some.injEq, Prod.mk.injEq] at htimes
  rw [hb, htimes.1, htimes.2]

/-- Witness for C6: `demo_source` merged into the root of `demo_target`: node 1 of the
target is untouched. -/
theorem merge_into_only_appends_witness :
    demo_merged.root = demo_target.root ∧ demo_merged.stats = demo_target.stats ∧
      demo_merged.nodes[1]? = demo_target.nodes[1]? :=
  have h := (merge_into_only_appends demo_acts demo_source demo_target 0 (by decide)).1
    4 (.ok ()) demo_merged rfl
  ⟨h.1, h.2.1, h.2.2.2.1 1 (by decide) (by decide)⟩

theorem grown_at_links_in_range {a b : call_tree_t} {r : Nat} (h : grown_at a b r)
    (ha : links_in_range a) : links_in_range b := by
  intro i hi l hl
  by_cases hia : i < a.nodes.length
  · by_cases hir : i = r
    · subst hir
      obtain ⟨nd, added, st, sp, hnd, hb, hadd⟩ := h.target
      simp only [links_at, hb, List.mem_append] at hl
      rcases hl with hl | hl
      · have := ha i hia l (by rw [links_at_of_get hnd]; exact hl)
        exact lt_of_lt_of_le this h.length_le
      · exact (hadd l hl).2.1
    · rw [links_at_congr (h.others i hia hir)] at hl
      exact lt_of_lt_of_le (ha i hia l hl) h.length_le
  · exact (h.fresh i (not_lt.mp hia) hi l hl).2.1

theorem add_new_link_grown {acts : actions_set_t} {a : call_tree_t} {r : Nat} (c : Int)
    (hr : r < a.nodes.length) : grown_at a (add_new_link acts a r c).2 r := by
  obtain ⟨nd, hnd⟩ := get_of_lt hr
  by_cases hc : acts.code_is_valid c = true
  · rw [add_new_link_eq hnd hc]
    exact (grown_at_child hnd (grown_at_refl (by simp))).1
  · have hc2 : acts.code_is_valid c = false := by simpa using hc
    rw [add_new_link_not_valid hc2]
    exact grown_at_refl hr

theorem find_link_same (acts : actions_set_t) (t : call_tree_t) (n : Nat) (c : Int) :
    (find_link acts t n c).2 = t := by
  unfold find_link
  split
  · rfl
  · split
    · rfl
    · split <;> rfl

theorem apply_grown_or_same {t t2 : call_tree_t} {op : arena_op}
    (hin : op.node_in_range t = true) (h : op.apply t = some t2) :
    (t2.nodes = t.nodes ∧ t2.root = t.root) ∨ ∃ r, grown_at t t2 r := by
  cases op with
  | add_new_link acts node c =>
    simp only [arena_op.node_in_range, decide_eq_true_eq] at hin
    simp only [arena_op.apply, Option.some.injEq] at h
    subst h
    exact Or.inr ⟨node, add_new_link_grown c hin⟩
  | find_link acts node c =>
    simp only [arena_op.apply, Option.some.injEq] at h
    subst h
    rw [find_link_same]
    exact Or.inl ⟨rfl, rfl⟩
  | set_node_start_time node time =>
    simp only [arena_op.node_in_range, decide_eq_true_eq] at hin
    simp only [arena_op.apply, Option.some.injEq] at h
    subst h
    exact Or.inr ⟨node, (set_node_start_time_grown hin rfl).2⟩
  | set_node_stop_time node time =>
    simp only [arena_op.node_in_range, decide_eq_true_eq] at hin
    simp only [arena_op.apply, Option.some.injEq] at h
    subst h
    exact Or.inr ⟨node, (set_node_stop_time_grown hin rfl).2⟩
  | add_stat key value =>
    simp only [arena_op.apply, Option.some.injEq] at h
    subst h
    unfold add_stat
    split <;> exact Or.inl ⟨rfl, rfl⟩
  | merge_into acts fuel lhs rhs_node =>
    simp only [arena_op.node_in_range, decide_eq_true_eq] at hin
    simp only [arena_op.apply, Option.map_eq_some'] at h
    obtain ⟨⟨res, b⟩, hb, rfl⟩ := h
    exact Or.inr ⟨rhs_node, (merge_into_grown hin hb).1⟩

theorem links_in_range_of_same {a b : call_tree_t} (h : b.nodes = a.nodes)
    (ha : links_in_range a) : links_in_range b := by
  intro i hi l hl
  simp only [links_at, h] at hl hi ⊢
  exact ha i hi l hl

theorem run_ops_links_in_range (ops : List arena_op) :
    ∀ t t2, links_in_range t → run_ops t ops = some t2 → links_in_range t2 := by
  induction ops with
  | nil =>
    intro t t2 ht h
    simp only [run_ops, Option.some.injEq] at h
    exact h ▸ ht
  | cons op rest ih =>
    intro t t2 ht h
    by_cases hin : op.node_in_range t = true
    · simp only [run_ops, hin, if_true] at h
      cases ha : op.apply t with
      | none => simp [ha] at h
      | some t1 =>
        simp only [ha] at h
        refine ih t1 t2 ?_ h
        rcases apply_grown_or_same hin ha with ⟨h1, _⟩ | ⟨r, hg⟩
        · exact links_in_range_of_same h1 ht
        · exact grown_at_links_in_range hg ht
    · simp [run_ops, hin] at h

/-- C7. In the arena reached from a freshly constructed one by any sequence of
`add_new_link`, `find_link`, `set_node_start_time`, `set_node_stop_time`,
`add_stat` and `merge_into` (the arena being the target), each with its node
argument inside the arena, every child pointer stored in a link is less than
the node count.  The empty sequence gives the fresh arena itself. -/
theorem links_stay_in_range (acts : actions_set_t) (ops : List arena_op) (t : call_tree_t)
    (h : run_ops (call_tree_t.new acts) ops = some t) : links_in_range t := by
  refine run_ops_links_in_range ops _ t ?_ h
  intro i hi l hl
  simp [call_tree_t.new, new_node] at hi
  subst hi
  simp [links_at, call_tree_t.new, new_node, node_t.new] at hl

/-- Witness for C7: the arena that `demo_ops` builds. -/
theorem links_stay_in_range_witness : links_in_range demo_built :=
  links_stay_in_range demo_acts demo_ops demo_built (by decide)

theorem keeps_nodes_refl (a : call_tree_t) : keeps_nodes a a := ⟨rfl, le_refl _, fun _ _ => rfl⟩

theorem keeps_nodes_trans {a b c : call_tree_t} (h1 : keeps_nodes a b) (h2 : keeps_nodes b c) :
    keeps_nodes a c := by
  obtain ⟨r1, l1, c1⟩ := h1
  obtain ⟨r2, l2, c2⟩ := h2
  exact ⟨r2.trans r1, le_trans l1 l2, fun i hi => (c2 i (lt_of_lt_of_le hi l1)).trans (c1 i hi)⟩

theorem keeps_nodes_append (a : call_tree_t) (l : List node_t) :
    keeps_nodes a { a with nodes := a.nodes ++ l } := by
  refine ⟨rfl, by simp, ?_⟩
  intro i hi
  simp [code_at, List.getElem?_append_left hi]

theorem keeps_nodes_set {a : call_tree_t} {r : Nat} {nd nd2 : node_t}
    (hnd : a.nodes[r]? = some nd) (hcode : nd2.action_code = nd.action_code) :
    keeps_nodes a { a with nodes := a.nodes.set r nd2 } := by
  refine ⟨rfl, by simp, ?_⟩
  intro i hi
  by_cases hir : r = i
  · subst hir
    simp [code_at, List.getElem?_set, hi, hnd, hcode]
  · simp [code_at, List.getElem?_set, hir]

theorem set_node_start_time_keeps (a : call_tree_t) (r : Nat) (time : Int) :
    keeps_nodes a (set_node_start_time a r time).2 := by
  unfold set_node_start_time
  split
  · exact keeps_nodes_refl a
  · next nd hnd => exact keeps_nodes_set hnd rfl

theorem set_node_stop_time_keeps (a : call_tree_t) (r : Nat) (time : Int) :
    keeps_nodes a (set_node_stop_time a r time).2 := by
  unfold set_node_stop_time
  split
  · exact keeps_nodes_refl a
  · next nd hnd => exact keeps_nodes_set hnd rfl

theorem add_new_link_keeps (acts : actions_set_t) (a : call_tree_t) (n : Nat) (c : Int) :
    keeps_nodes a (add_new_link acts a n c).2 := by
  unfold add_new_link
  split
  · exact keeps_nodes_refl a
  · simp only [new_node]
    split
    · exact keeps_nodes_append a _
    · next nd hnd =>
      exact keeps_nodes_trans (keeps_nodes_append a [node_t.new c])
        (keeps_nodes_set (a := { a with nodes := a.nodes ++ [node_t.new c] }) hnd rfl)

theorem merge_times_keeps {lhs a b : call_tree_t} {ln r : Nat} {res : Except fault Unit}
    (h : merge_times lhs ln r a = (res, b)) : keeps_nodes a b := by
  unfold merge_times at h
  split at h
  · split at h
    · simp only [Prod.mk.injEq] at h; exact h.2 ▸ keeps_nodes_refl a
    · next start _ =>
      have k1 := set_node_start_time_keeps a r start
      split at h
      · next e rhs1 heq =>
        simp only [Prod.mk.injEq] at h
        rw [heq] at k1
        exact h.2 ▸ k1
      · next rhs1 heq =>
        rw [heq] at k1
        split at h
        · simp only [Prod.mk.injEq] at h; exact h.2 ▸ k1
        · next stop _ =>
          have k2 := set_node_stop_time_keeps rhs1 r stop
          rw [h] at k2
          exact keeps_nodes_trans k1 k2
  · simp only [Prod.mk.injEq] at h; exact h.2 ▸ keeps_nodes_refl a

theorem merge_links_keeps {acts : actions_set_t}
    {recurse : Nat → Nat → call_tree_t → Option (Except fault Unit × call_tree_t)}
    (hrec : ∀ ln rn x res y, recurse ln rn x = some (res, y) → keeps_nodes x y)
    {r : Nat} (links : List (Int × Nat)) :
    ∀ {a b : call_tree_t} {res : Except fault Unit},
      merge_links acts recurse r links a = some (res, b) → keeps_nodes a b := by
  induction links with
  | nil =>
    intro a b res h
    simp only [merge_links, Option.some.injEq, Prod.mk.injEq] at h
    exact h.2 ▸ keeps_nodes_refl a
  | cons l rest ih =>
    intro a b res h
    obtain ⟨c, ch⟩ := l
    have k1 := add_new_link_keeps acts a r c
    simp only [merge_links] at h
    split at h
    · next e rhs1 heq =>
      simp only [Option.some.injEq, Prod.mk.injEq] at h
      rw [heq] at k1
      exact h.2 ▸ k1
    · next m rhs1 heq =>
      rw [heq] at k1
      split at h
      · cases h
      · next e rhs2 hq =>
        simp only [Option.some.injEq, Prod.mk.injEq] at h
        exact h.2 ▸ keeps_nodes_trans k1 (hrec _ _ _ _ _ hq)
      · next rhs2 hq =>
        exact keeps_nodes_trans (keeps_nodes_trans k1 (hrec _ _ _ _ _ hq)) (ih h)

theorem merge_into_node_keeps {acts : actions_set_t} {lhs : call_tree_t} (fuel : Nat) :
    ∀ (ln r : Nat) (a : call_tree_t) (res : Except fault Unit) (b : call_tree_t),
      merge_into_node acts lhs fuel ln r a = some (res, b) → keeps_nodes a b := by
  induction fuel with
  | zero => intro ln r a res b h; simp [merge_into_node] at h
  | succ f ih =>
    intro ln r a res b h
    simp only [merge_into_node] at h
    split at h
    · next e rhs1 heq =>
      simp only [Option.some.injEq, Prod.mk.injEq] at h
      exact h.2 ▸ merge_times_keeps heq
    · next rhs1 heq =>
      have k1 := merge_times_keeps heq
      split at h
      · simp only [Option.some.injEq, Prod.mk.injEq] at h
        exact h.2 ▸ k1
      · next links _ => exact keeps_nodes_trans k1 (merge_links_keeps ih links h)

theorem apply_keeps {t t2 : call_tree_t} {op : arena_op} (h : op.apply t = some t2) :
    keeps_nodes t t2 := by
  cases op with
  | add_new_link acts node c =>
    simp only [arena_op.apply, Option.some.injEq] at h
    exact h ▸ add_new_link_keeps acts t node c
  | find_link acts node c =>
    simp only [arena_op.apply, Option.some.injEq] at h
    rw [find_link_same] at h
    exact h ▸ keeps_nodes_refl t
  | set_node_start_time node time =>
    simp only [arena_op.apply, Option.some.injEq] at h
    exact h ▸ set_node_start_time_keeps t node time
  | set_node_stop_time node time =>
    simp only [arena_op.apply, Option.some.injEq] at h
    exact h ▸ set_node_stop_time_keeps t node time
  | add_stat key value =>
    simp only [arena_op.apply, Option.some.injEq] at h
    subst h
    unfold add_stat
    split <;> exact ⟨rfl, le_refl _, fun _ _ => rfl⟩
  | merge_into acts fuel lhs rhs_node =>
    simp only [arena_op.apply, Option.map_eq_some'] at h
    obtain ⟨⟨res, b⟩, hb, rfl⟩ := h
    exact merge_into_node_keeps fuel _ _ _ _ _ hb

theorem run_ops_keeps (ops : List arena_op) :
    ∀ t t2, run_ops t ops = some t2 → keeps_nodes t t2 := by
  induction ops with
  | nil =>
    intro t t2 h
    simp only [run_ops, Option.some.injEq] at h
    exact h ▸ keeps_nodes_refl t
  | cons op rest ih =>
    intro t t2 h
    by_cases hin : op.node_in_range t = true
    · simp only [run_ops, hin, if_true] at h
      cases ha : op.apply t with
      | none => simp [ha] at h
      | some t1 =>
        simp only [ha] at h
        exact keeps_nodes_trans (apply_keeps ha) (ih t1 t2 h)
    · simp [run_ops, hin] at h

/-- C8. Whatever the call (`add_new_link`, `find_link`, a time setter,
`add_stat`, `merge_into` as target) and whatever its arguments, the arena the
call leaves has at least as many nodes as before, and every index that held a
node before holds a node with the same action code. -/
theorem arena_only_grows (t : call_tree_t) (op : arena_op) (t2 : call_tree_t)
    (h : op.apply t = some t2) :
    t.nodes.length ≤ t2.nodes.length ∧
      ∀ i, i < t.nodes.length → code_at t2 i = code_at t i :=
  (apply_keeps h).2

/-- Witness for C8: the merge of `demo_source` into the root of `demo_target`. -/
theorem arena_only_grows_witness :
    demo_target.nodes.length ≤ demo_merged.nodes.length ∧
      ∀ i, i < demo_target.nodes.length → code_at demo_merged i = code_at demo_target i :=
  arena_only_grows demo_target (.merge_into demo_acts 4 demo_source 0) demo_merged (by decide)

/-- C9. A freshly constructed arena has root pointer 0, the single node 0
with action code `NO_ACTION`, start time 0, stop time 0 and no links, and an
empty stat map.  After any sequence of calls the root pointer is 0 and node 0
has action code `NO_ACTION`. -/
theorem root_is_node_zero (acts : actions_set_t) :
    call_tree_t.new acts =
      { root := 0
        nodes := [{ action_code := acts.NO_ACTION, start_time := 0, stop_time := 0, links := [] }]
        stats := [] } ∧
    ∀ ops t, run_ops (call_tree_t.new acts) ops = some t →
      t.root = 0 ∧ code_at t 0 = some acts.NO_ACTION := by
  refine ⟨rfl, ?_⟩
  intro ops t h
  obtain ⟨h1, _, h3⟩ := run_ops_keeps ops _ t h
  exact ⟨h1, h3 0 (by simp [call_tree_t.new, new_node])⟩

/-- Witness for C9: the arena that `demo_ops` builds. -/
theorem root_is_node_zero_witness :
    demo_built.root = 0 ∧ code_at demo_built 0 = some demo_acts.NO_ACTION :=
  (root_is_node_zero demo_acts).2 demo_ops demo_built (by decide)

theorem find_link_none {acts : actions_set_t} {t : call_tree_t} {n : Nat} {c : Int}
    (hn : n < t.nodes.length) (hc : acts.code_is_valid c = true)
    (hno : ∀ l ∈ links_at t n, l.1 ≠ c) : find_link acts t n c = (.ok NO_NODE, t) := by
  obtain ⟨nd, hnd⟩ := get_of_lt hn
  rw [links_at_of_get hnd] at hno
  have hnone : List.find? (fun v : Int × Nat => v.1 == c) nd.links.reverse = none := by
    rw [List.find?_eq_none]
    intro x hx
    have := hno x (List.mem_reverse.mp hx)
    simpa using this
  simp [find_link, hc, hnd, hnone]

theorem find_link_last {acts : actions_set_t} {t : call_tree_t} {n p : Nat} {c : Int}
    {pre : List (Int × Nat)} (hn : n < t.nodes.length) (hc : acts.code_is_valid c = true)
    (hl : links_at t n = pre ++ [(c, p)]) : find_link acts t n c = (.ok p, t) := by
  obtain ⟨nd, hnd⟩ := get_of_lt hn
  rw [links_at_of_get hnd] at hl
  simp [find_link, hc, hnd, hl]

theorem find_link_congr {acts : actions_set_t} {t t2 : call_tree_t} {n : Nat} {c : Int}
    (hn : n < t.nodes.length) (hn2 : n < t2.nodes.length) (hl : links_at t2 n = links_at t n) :
    (find_link acts t2 n c).1 = (find_link acts t n c).1 := by
  obtain ⟨nd, hnd⟩ := get_of_lt hn
  obtain ⟨nd2, hnd2⟩ := get_of_lt hn2
  simp only [links_at, hnd, hnd2] at hl
  unfold find_link
  simp only [hnd, hnd2, hl]
  split
  · rfl
  · split <;> rfl

theorem set_node_start_time_spec {t : call_tree_t} {r : Nat} (time : Int)
    (hr : r < t.nodes.length) :
    ∃ b, set_node_start_time t r time = (.ok (), b) ∧ b.nodes.length = t.nodes.length ∧
      ∀ i, links_at b i = links_at t i := by
  obtain ⟨nd, hnd⟩ := get_of_lt hr
  refine ⟨call_tree_t.mk t.root
      (t.nodes.set r (node_t.mk nd.action_code time nd.stop_time nd.links)) t.stats,
    by simp only [set_node_start_time, hnd], by simp, ?_⟩
  intro i
  by_cases hir : r = i
  · subst hir; simp [links_at, List.getElem?_set, hr, hnd]
  · simp [links_at, List.getElem?_set, hir]

theorem exit_scope_spec {t : call_tree_t} {r : Nat} (time : Int) (hr : r < t.nodes.length) :
    ∃ b, exit_scope t r time = (.ok (), b) ∧ b.nodes.length = t.nodes.length ∧
      ∀ i, links_at b i = links_at t i := by
  obtain ⟨nd, hnd⟩ := get_of_lt hr
  refine ⟨call_tree_t.mk t.root
      (t.nodes.set r (node_t.mk nd.action_code nd.start_time time nd.links)) t.stats,
    by simp only [exit_scope, set_node_stop_time, hnd], by simp, ?_⟩
  intro i
  by_cases hir : r = i
  · subst hir; simp [links_at, List.getElem?_set, hr, hnd]
  · simp [links_at, List.getElem?_set, hir]

theorem add_new_link_spec {acts : actions_set_t} {t : call_tree_t} {n : Nat} {c : Int}
    (hn : n < t.nodes.length) (hc : acts.code_is_valid c = true) :
    ∃ b, add_new_link acts t n c = (.ok t.nodes.length, b) ∧
      b.nodes.length = t.nodes.length + 1 ∧
      links_at b n = links_at t n ++ [(c, t.nodes.length)] := by
  obtain ⟨nd, hnd⟩ := get_of_lt hn
  refine ⟨_, add_new_link_eq hnd hc, by simp, ?_⟩
  simp only [links_at, get_add_new_link_self hnd, hnd]

theorem enter_distinct_spec {acts : actions_set_t} {t : call_tree_t} {n : Nat} {c : Int}
    (now : Int) (hn : n < t.nodes.length) (hc : acts.code_is_valid c = true) :
    ∃ b, enter_distinct acts t n c now = (.ok t.nodes.length, b) ∧
      b.nodes.length = t.nodes.length + 1 ∧
      links_at b n = links_at t n ++ [(c, t.nodes.length)] := by
  obtain ⟨a, ha, hlen, hl⟩ := add_new_link_spec hn hc
  obtain ⟨b, hb, hlen2, hl2⟩ := set_node_start_time_spec (t := a) (r := t.nodes.length) now (by omega)
  refine ⟨b, ?_, by omega, by rw [hl2, hl]⟩
  simp only [enter_distinct, ha, hb]

theorem enter_merge_fresh {acts : actions_set_t} {t : call_tree_t} {n : Nat} {c : Int}
    (now : Int) (hn : n < t.nodes.length) (hc : acts.code_is_valid c = true)
    (hno : ∀ l ∈ links_at t n, l.1 ≠ c) :
    enter_merge acts t n c now = enter_distinct acts t n c now := by
  simp only [enter_merge, find_link_none hn hc hno, if_true]

theorem enter_merge_found {acts : actions_set_t} {t : call_tree_t} {n q : Nat} {c : Int}
    (now : Int) (hf : (find_link acts t n c).1 = .ok q) (hq : q ≠ NO_NODE)
    (hqn : q < t.nodes.length) :
    ∃ b, enter_merge acts t n c now = (.ok q, b) ∧ b.nodes.length = t.nodes.length ∧
      ∀ i, links_at b i = links_at t i := by
  obtain ⟨b, hb, hlen, hl⟩ := set_node_start_time_spec (t := t) (r := q) now hqn
  refine ⟨b, ?_, hlen, hl⟩
  have h2 := find_link_same acts t n c
  have h3 : find_link acts t n c = (.ok q, t) := Prod.ext hf h2
  simp only [enter_merge, h3, hq, if_false, hb]

/-- C10, amended.  For an arena of `N` nodes with `N` below `NO_NODE`, a
cursor `n < N` and a valid code `c`, entering `c` at `n`, leaving, and
entering `c` at `n` again:
in distinct mode the two children are `N` and `N + 1`, the arena ends with
`N + 2` nodes and `n` has gained the two links `(c, N)` and `(c, N + 1)`;
in merge mode, when `n` had no link with code `c`, both entries give the
child `N`, the arena ends with `N + 1` nodes and `n` has gained the one link
`(c, N)`;
in merge mode, when `find_link(n, c)` finds a child `q` of the arena, both
entries give `q` and neither a node nor a link is added. -/
theorem enter_twice_merge_or_distinct (acts : actions_set_t) (t : call_tree_t) (n : Nat) (c : Int)
    (t1 t2 t3 : Int) (hn : n < t.nodes.length) (hc : acts.code_is_valid c = true)
    (hsize : t.nodes.length < NO_NODE) :
    (∃ b, enter_twice false acts t n c t1 t2 t3 =
          (.ok (t.nodes.length, t.nodes.length + 1), b) ∧
        b.nodes.length = t.nodes.length + 2 ∧
        links_at b n = links_at t n ++ [(c, t.nodes.length), (c, t.nodes.length + 1)]) ∧
    ((∀ l ∈ links_at t n, l.1 ≠ c) →
      ∃ b, enter_twice true acts t n c t1 t2 t3 = (.ok (t.nodes.length, t.nodes.length), b) ∧
        b.nodes.length = t.nodes.length + 1 ∧
        links_at b n = links_at t n ++ [(c, t.nodes.length)]) ∧
    (∀ q, (find_link acts t n c).1 = .ok q → q ≠ NO_NODE → q < t.nodes.length →
      ∃ b, enter_twice true acts t n c t1 t2 t3 = (.ok (q, q), b) ∧
        b.nodes.length = t.nodes.length ∧ links_at b n = links_at t n) := by
  refine ⟨?_, ?_, ?_⟩
  · obtain ⟨a, ha, hla, hka⟩ := enter_distinct_spec t1 hn hc
    obtain ⟨b, hb, hlb, hkb⟩ := exit_scope_spec (t := a) (r := t.nodes.length) t2 (by omega)
    obtain ⟨d, hd, hld, hkd⟩ := enter_distinct_spec (t := b) (n := n) t3 (by omega) hc
    refine ⟨d, ?_, by omega, ?_⟩
    · simp only [enter_twice, Bool.false_eq_true, if_false, ha, hb, hd, hlb, hla]
    · rw [hkd, hkb, hka, hlb, hla]; simp
  · intro hno
    obtain ⟨a, ha, hla, hka⟩ := enter_distinct_spec t1 hn hc
    rw [← enter_merge_fresh t1 hn hc hno] at ha
    obtain ⟨b, hb, hlb, hkb⟩ := exit_scope_spec (t := a) (r := t.nodes.length) t2 (by omega)
    have hnb : n < b.nodes.length := by omega
    have hfind : find_link acts b n c = (.ok t.nodes.length, b) :=
      find_link_last hnb hc (by rw [hkb, hka])
    obtain ⟨d, hd, hld, hkd⟩ := enter_merge_found (t := b) (n := n) t3
      (by rw [hfind]) (Nat.ne_of_lt hsize) (by omega)
    refine ⟨d, ?_, by omega, by rw [hkd, hkb, hka]⟩
    simp only [enter_twice, if_true, ha, hb, hd]
  · intro q hf hq hqn
    obtain ⟨a, ha, hla, hka⟩ := enter_merge_found t1 hf hq hqn
    obtain ⟨b, hb, hlb, hkb⟩ := exit_scope_spec (t := a) (r := q) t2 (by omega)
    have hf2 : (find_link acts b n c).1 = .ok q := by
      rw [find_link_congr hn (by omega) (by rw [hkb, hka]), hf]
    obtain ⟨d, hd, hld, hkd⟩ := enter_merge_found (t := b) (n := n) t3 hf2 hq (by omega)
    refine ⟨d, ?_, by omega, by rw [hkd, hkb, hka]⟩
    simp only [enter_twice, if_true, ha, hb, hd]

/-- Witness for C10, amended: the root of `demo_target`, which has a child with code 0. -/
theorem enter_twice_merge_or_distinct_witness :
    ∃ b, enter_twice true demo_acts demo_target 0 0 1 2 3 = (.ok (1, 1), b) ∧
      b.nodes.length = demo_target.nodes.length ∧ links_at b 0 = links_at demo_target 0 :=
  (enter_twice_merge_or_distinct demo_acts demo_target 0 0 1 2 3 (by decide) (by decide)
    (by decide)).2.2 1 rfl (by decide) (by decide)

/-- Counterexample to C10 as stated: at the root of `demo_target`, which already has a
child with code 0, entering code 0 twice in merge mode does not add a node. -/
theorem merge_mode_adds_one_node_counterexample :
    ¬ ∃ p b, enter_twice true demo_acts demo_target 0 0 1 2 3 = (.ok (p, p), b) ∧
        b.nodes.length = demo_target.nodes.length + 1 ∧
        (links_at b 0).length = (links_at demo_target 0).length + 1 := by
  rintro ⟨p, b, h1, h2, _⟩
  have h : (enter_twice true demo_acts demo_target 0 0 1 2 3).2.nodes.length = 2 := by decide
  rw [h1] at h
  simp only at h
  rw [h] at h2
  revert h2
  decide

theorem has_stat_eq (t : call_tree_t) (key : String) : has_stat t key = (stat_at t key).isSome := by
  unfold has_stat stat_at
  cases t.stats.find? (fun e => e.1 == key) <;> rfl

theorem get_stat_eq (t : call_tree_t) (T : stat_type) (key : String) :
    get_stat t T key =
      match stat_at t key with
      | none => .error .out_of_range
      | some v => if v.type_of = T then .ok v else .error .bad_get := by
  unfold get_stat stat_at
  cases t.stats.find? (fun e => e.1 == key) <;> rfl

theorem find_key_cons_pos {key : String} {e : String × stat_value_t}
    (l : List (String × stat_value_t)) (h : e.1 = key) :
    (e :: l).find? (fun x => x.1 == key) = some e := by
  simp [List.find?_cons, h]

theorem find_key_cons_neg {key : String} {e : String × stat_value_t}
    (l : List (String × stat_value_t)) (h : ¬ e.1 = key) :
    (e :: l).find? (fun x => x.1 == key) = l.find? (fun x => x.1 == key) := by
  simp [List.find?_cons, h]

theorem find_replace (k key : String) (v : stat_value_t) (l : List (String × stat_value_t)) :
    ((l.map (fun e => if e.1 == k then (k, v) else e)).find? (fun e => e.1 == key)).map Prod.snd =
      if k = key then (if l.any (fun e => e.1 == k) then some v else none)
      else (l.find? (fun e => e.1 == key)).map Prod.snd := by
  induction l with
  | nil => simp
  | cons e rest ih =>
    rw [List.map_cons, List.any_cons]
    by_cases he : e.1 = k
    · have h1 : (e.1 == k) = true := by simpa using he
      simp only [h1, if_true, Bool.true_or]
      by_cases hk : k = key
      · rw [find_key_cons_pos _ hk]
        simp [hk]
      · rw [find_key_cons_neg _ hk, ih]
        have : ¬ e.1 = key := by rw [he]; exact hk
        rw [find_key_cons_neg _ this]
        simp [hk]
    · have h1 : (e.1 == k) = false := by simpa using he
      simp only [h1, Bool.false_or, Bool.false_eq_true, if_false]
      by_cases he2 : e.1 = key
      · rw [find_key_cons_pos _ he2, find_key_cons_pos _ he2]
        have : ¬ k = key := by rw [← he2]; exact fun h => he h.symm
        simp [this]
      · rw [find_key_cons_neg _ he2, find_key_cons_neg _ he2, ih]

theorem stat_at_eq_map (t : call_tree_t) (key : String) :
    stat_at t key = (t.stats.find? (fun e => e.1 == key)).map Prod.snd := by
  unfold stat_at
  cases t.stats.find? (fun e => e.1 == key) <;> rfl

theorem stat_at_add_stat (t : call_tree_t) (k key : String) (v : stat_value_t) :
    stat_at (add_stat t k v) key = if k = key then some v else stat_at t key := by
  rw [stat_at_eq_map, stat_at_eq_map]
  unfold add_stat
  split
  · next hany =>
    simp only []
    rw [find_replace, hany]
    simp
  · next hany =>
    simp only [List.find?_append]
    by_cases hk : k = key
    · subst hk
      have : t.stats.find? (fun e => e.1 == k) = none := by
        rw [List.find?_eq_none]
        intro x hx hxk
        exact hany (List.any_eq_true.mpr ⟨x, hx, hxk⟩)
      simp [this]
    · cases h : t.stats.find? (fun e => e.1 == key) <;> simp [h, hk]

theorem set_node_start_time_stats (t : call_tree_t) (n : Nat) (time : Int) :
    (set_node_start_time t n time).2.stats = t.stats := by
  unfold set_node_start_time
  split <;> rfl

theorem set_node_stop_time_stats (t : call_tree_t) (n : Nat) (time : Int) :
    (set_node_stop_time t n time).2.stats = t.stats := by
  unfold set_node_stop_time
  split <;> rfl

theorem apply_stat_at {t t2 : call_tree_t} {op : arena_op} (key : String)
    (hin : op.node_in_range t = true) (h : op.apply t = some t2) :
    stat_at t2 key = match last_added key [op] with
      | some v => some v
      | none => stat_at t key := by
  cases op with
  | add_new_link acts node c =>
    simp only [arena_op.node_in_range, decide_eq_true_eq] at hin
    simp only [arena_op.apply, Option.some.injEq] at h
    subst h
    simp only [last_added, stat_at, (add_new_link_grown c hin).stats_eq]
  | find_link acts node c =>
    simp only [arena_op.apply, Option.some.injEq] at h
    subst h
    simp only [last_added, find_link_same]
  | set_node_start_time node time =>
    simp only [arena_op.node_in_range, decide_eq_true_eq] at hin
    simp only [arena_op.apply, Option.some.injEq] at h
    subst h
    simp only [last_added, stat_at, set_node_start_time_stats]
  | set_node_stop_time node time =>
    simp only [arena_op.node_in_range, decide_eq_true_eq] at hin
    simp only [arena_op.apply, Option.some.injEq] at h
    subst h
    simp only [last_added, stat_at, set_node_stop_time_stats]
  | add_stat k v =>
    simp only [arena_op.apply, Option.some.injEq] at h
    subst h
    rw [stat_at_add_stat]
    by_cases hk : k = key <;> simp [last_added, hk]
  | merge_into acts fuel lhs rhs_node =>
    simp only [arena_op.node_in_range, decide_eq_true_eq] at hin
    simp only [arena_op.apply, Option.map_eq_some'] at h
    obtain ⟨⟨res, b⟩, hb, rfl⟩ := h
    simp only [last_added, stat_at, (merge_into_grown hin hb).1.stats_eq]

theorem last_added_cons (key : String) (op : arena_op) (rest : List arena_op) :
    last_added key (op :: rest) = match last_added key rest with
      | some v => some v
      | none => last_added key [op] := by
  cases h : last_added key rest with
  | some v => simp [last_added, h]
  | none => cases op <;> simp [last_added, h]

theorem run_ops_stat_at (key : String) (ops : List arena_op) :
    ∀ t t2, run_ops t ops = some t2 →
      stat_at t2 key = match last_added key ops with
        | some v => some v
        | none => stat_at t key := by
  induction ops with
  | nil =>
    intro t t2 h
    simp only [run_ops, Option.some.injEq] at h
    subst h
    simp [last_added]
  | cons op rest ih =>
    intro t t2 h
    by_cases hin : op.node_in_range t = true
    · simp only [run_ops, hin, if_true] at h
      cases ha : op.apply t with
      | none => simp [ha] at h
      | some t1 =>
        simp only [ha] at h
        rw [ih t1 t2 h, last_added_cons, apply_stat_at key hin ha]
        cases last_added key rest <;> rfl
    · simp [run_ops, hin] at h

/-- C11. In the arena reached from a fresh one by a sequence of calls,
`has_stat(k)` is true exactly when the sequence holds an `add_stat` under `k`,
and `get_stat<T>(k)` is decided by the value `v` that the last `add_stat`
under `k` stored: it returns `v` when `v` has type `T`, ends with
`boost::bad_get` when `v` has another type, and ends with `std::out_of_range`
when no `add_stat` under `k` was made.  A value added through the overload for
C strings is handed back by `get_stat<std::string>` as that string. -/
theorem get_stat_returns_last_added (acts : actions_set_t) (ops : List arena_op)
    (t : call_tree_t) (key : String) (T : stat_type)
    (h : run_ops (call_tree_t.new acts) ops = some t) :
    has_stat t key = (last_added key ops).isSome ∧
    (get_stat t T key = match last_added key ops with
      | none => .error .out_of_range
      | some v => if v.type_of = T then .ok v else .error .bad_get) ∧
    ∀ s, get_stat (add_stat_cstr t key s) .string key = .ok (stat_value_t.string_value s) := by
  have hs := run_ops_stat_at key ops _ t h
  have h0 : stat_at (call_tree_t.new acts) key = none := by
    simp [stat_at, call_tree_t.new, new_node]
  rw [h0] at hs
  have hs2 : stat_at t key = last_added key ops := by
    rw [hs]; cases last_added key ops <;> rfl
  refine ⟨by rw [has_stat_eq, hs2], by rw [get_stat_eq, hs2], ?_⟩
  intro s
  rw [get_stat_eq, add_stat_cstr, stat_at_add_stat]
  simp [stat_value_t.type_of]

/-- Witness for C11: the arena that `demo_ops` builds, where the one stat is
the string `a` under `host`. -/
theorem get_stat_returns_last_added_witness :
    has_stat demo_built "host" = true ∧
    get_stat demo_built .string "host" = .ok (stat_value_t.string_value "a") ∧
    get_stat demo_built .int "host" = .error .bad_get ∧
    get_stat demo_built .int "port" = .error .out_of_range :=
  ⟨(get_stat_returns_last_added demo_acts demo_ops demo_built "host" .string (by decide)).1,
   (get_stat_returns_last_added demo_acts demo_ops demo_built "host" .string (by decide)).2.1,
   (get_stat_returns_last_added demo_acts demo_ops demo_built "host" .int (by decide)).2.1,
   (get_stat_returns_last_added demo_acts demo_ops demo_built "port" .int (by decide)).2.1⟩

/-- C12. With the mutex as a flag of the state: when the mutex is free,
`copy_call_tree()` returns a copy equal to the inner tree (same root pointer,
same nodes, same stat map) and leaves the shared tree with the same inner tree
and a free mutex.  The copy is a value of its own: whatever call is later
applied to the inner tree, the copy is still the tree that was held at the
time of the call. -/
theorem copy_call_tree_snapshot (c : concurrent_call_tree_t) (hfree : c.tree_mutex = false) :
    ∃ copy c2, c.copy_call_tree = some (copy, c2) ∧
      copy = c.get_call_tree ∧ copy.root = c.call_tree.root ∧ copy.nodes = c.call_tree.nodes ∧
      copy.stats = c.call_tree.stats ∧ c2.call_tree = c.call_tree ∧ c2.tree_mutex = false ∧
      ∀ (op : arena_op) (live : call_tree_t), op.apply c2.call_tree = some live →
        ({ c2 with call_tree := live } : concurrent_call_tree_t).call_tree = live ∧
          copy = c.call_tree := by
  have h : c.copy_call_tree = some (c.call_tree, c) := by
    cases c with
    | mk m tr =>
      simp only at hfree
      subst hfree
      rfl
  exact ⟨c.call_tree, c, h, rfl, rfl, rfl, rfl, rfl, hfree, fun _ _ _ => ⟨rfl, rfl⟩⟩

/-- Witness for C12: a shared tree that holds `demo_built`, with a free mutex. -/
theorem copy_call_tree_snapshot_witness :
    ∃ copy c2, concurrent_call_tree_t.copy_call_tree
        { tree_mutex := false, call_tree := demo_built } = some (copy, c2) ∧
      copy = demo_built ∧ copy.root = demo_built.root ∧ copy.nodes = demo_built.nodes ∧
      copy.stats = demo_built.stats ∧ c2.call_tree = demo_built ∧ c2.tree_mutex = false ∧
      ∀ (op : arena_op) (live : call_tree_t), op.apply c2.call_tree = some live →
        ({ c2 with call_tree := live } : concurrent_call_tree_t).call_tree = live ∧
          copy = demo_built :=
  copy_call_tree_snapshot { tree_mutex := false, call_tree := demo_built } rfl

/-- C14. For a node `n` inside the arena and any time `time`:
`set_node_start_time(n, time)` returns, `get_node_start_time(n)` then returns
`time`, and the stop time, action code and links of `n`, every other node,
the node count, the stat map and the root pointer are as before; the same
holds for `set_node_stop_time` with start and stop exchanged.  Nothing is
asked of the order of the two times. -/
theorem time_accessors_are_plain (t : call_tree_t) (n : Nat) (time : Int)
    (hn : n < t.nodes.length) :
    (∃ b, set_node_start_time t n time = (.ok (), b) ∧
      get_node_start_time b n = .ok time ∧
      get_node_stop_time b n = get_node_stop_time t n ∧
      get_node_action_code b n = get_node_action_code t n ∧
      get_node_links b n = get_node_links t n ∧
      (∀ i, i ≠ n → b.nodes[i]? = t.nodes[i]?) ∧
      b.nodes.length = t.nodes.length ∧ b.stats = t.stats ∧ b.root = t.root) ∧
    (∃ b, set_node_stop_time t n time = (.ok (), b) ∧
      get_node_stop_time b n = .ok time ∧
      get_node_start_time b n = get_node_start_time t n ∧
      get_node_action_code b n = get_node_action_code t n ∧
      get_node_links b n = get_node_links t n ∧
      (∀ i, i ≠ n → b.nodes[i]? = t.nodes[i]?) ∧
      b.nodes.length = t.nodes.length ∧ b.stats = t.stats ∧ b.root = t.root) := by
  obtain ⟨nd, hnd⟩ := get_of_lt hn
  constructor
  · refine ⟨call_tree_t.mk t.root
        (t.nodes.set n (node_t.mk nd.action_code time nd.stop_time nd.links)) t.stats,
      by simp only [set_node_start_time, hnd], ?_, ?_, ?_, ?_, ?_, by simp, rfl, rfl⟩
    · simp [get_node_start_time, List.getElem?_set, hn]
    · simp [get_node_stop_time, List.getElem?_set, hn, hnd]
    · simp [get_node_action_code, List.getElem?_set, hn, hnd]
    · simp [get_node_links, List.getElem?_set, hn, hnd]
    · intro i hi
      simp [List.getElem?_set, hi.symm]
  · refine ⟨call_tree_t.mk t.root
        (t.nodes.set n (node_t.mk nd.action_code nd.start_time time nd.links)) t.stats,
      by simp only [set_node_stop_time, hnd], ?_, ?_, ?_, ?_, ?_, by simp, rfl, rfl⟩
    · simp [get_node_stop_time, List.getElem?_set, hn]
    · simp [get_node_start_time, List.getElem?_set, hn, hnd]
    · simp [get_node_action_code, List.getElem?_set, hn, hnd]
    · simp [get_node_links, List.getElem?_set, hn, hnd]
    · intro i hi
      simp [List.getElem?_set, hi.symm]

/-- Witness for C14: start time 100 on node 1 of `demo_target`, whose stop
time is 7. -/
theorem time_accessors_are_plain_witness :
    ∃ b, set_node_start_time demo_target 1 100 = (.ok (), b) ∧
      get_node_start_time b 1 = .ok 100 ∧
      get_node_stop_time b 1 = get_node_stop_time demo_target 1 ∧
      get_node_action_code b 1 = get_node_action_code demo_target 1 ∧
      get_node_links b 1 = get_node_links demo_target 1 ∧
      (∀ i, i ≠ 1 → b.nodes[i]? = demo_target.nodes[i]?) ∧
      b.nodes.length = demo_target.nodes.length ∧ b.stats = demo_target.stats ∧
      b.root = demo_target.root :=
  (time_accessors_are_plain demo_target 1 100 (by decide)).1

/-- C16. For every arena, node `n` and code `c`: `find_link(n, c)` ends with
the invalid-argument error exactly when `c` is not valid, whatever the links
of `n` are; for such a code it does not return `NO_NODE`; and the arena it
leaves is the arena it was given, whether it returns or throws. -/
theorem find_link_invalid_code (acts : actions_set_t) (t : call_tree_t) (n : Nat) (c : Int) :
    ((find_link acts t n c).1 = .error .invalid_argument ↔ acts.code_is_valid c = false) ∧
    (acts.code_is_valid c = false → (find_link acts t n c).1 ≠ .ok NO_NODE) ∧
    (find_link acts t n c).2 = t := by
  refine ⟨?_, ?_, find_link_same acts t n c⟩
  · constructor
    · intro h
      by_contra hc
      have hc2 : acts.code_is_valid c = true := by simpa using hc
      unfold find_link at h
      simp only [hc2, Bool.not_true, Bool.false_eq_true, if_false] at h
      split at h
      · cases h
      · split at h <;> cases h
    · intro hc
      simp [find_link, hc]
  · intro hc h
    simp [find_link, hc] at h

theorem neg_one_mod_two_pow (w : Nat) : ((-1 : Int) % (2 : Int) ^ w).toNat = 2 ^ w - 1 := by
  have hpos : (0 : Int) < (2 : Int) ^ w := by positivity
  have h1 : (-1 : Int) % (2 : Int) ^ w = (2 : Int) ^ w - 1 := by
    have : (-1 : Int) % (2 : Int) ^ w = ((2 : Int) ^ w - 1) % (2 : Int) ^ w := by
      rw [show ((2 : Int) ^ w - 1) = -1 + (2 : Int) ^ w by ring, Int.add_emod_self]
    rw [this]
    exact Int.emod_eq_of_lt (by omega) (by omega)
  rw [h1]
  have h2 : ((2 : Int) ^ w - 1) = (((2 ^ w - 1 : Nat)) : Int) := by
    have : 1 ≤ 2 ^ w := Nat.one_le_two_pow
    push_cast [Nat.cast_sub this]
    ring
  rw [h2, Int.toNat_ofNat]

/-- C20. `NO_NODE`, the conversion of -1 to `size_t`, is `2 ^ w - 1` for the
width `w` of `size_t`.  In an arena whose child pointers are all below the
node count, and whose node count is below `2 ^ w`, no child pointer is
`NO_NODE`; so for a node `n` of the arena and a valid code `c`,
`find_link(n, c)` returns `NO_NODE` if and only if no link of `n` has code
`c`. -/
theorem no_node_is_no_child (acts : actions_set_t) (t : call_tree_t) (n : Nat) (c : Int)
    (hrange : links_in_range t) (hsize : t.nodes.length < 2 ^ SIZE_BITS) :
    NO_NODE = 2 ^ SIZE_BITS - 1 ∧
    (∀ w : Nat, ((-1 : Int) % (2 : Int) ^ w).toNat = 2 ^ w - 1) ∧
    (∀ i, i < t.nodes.length → ∀ l ∈ links_at t i, l.2 ≠ NO_NODE) ∧
    (n < t.nodes.length → acts.code_is_valid c = true →
      ((find_link acts t n c).1 = .ok NO_NODE ↔ ∀ l ∈ links_at t n, l.1 ≠ c)) := by
  have h0 : NO_NODE = 2 ^ SIZE_BITS - 1 := by decide
  have hne : ∀ i, i < t.nodes.length → ∀ l ∈ links_at t i, l.2 ≠ NO_NODE := by
    intro i hi l hl
    have := hrange i hi l hl
    omega
  refine ⟨h0, neg_one_mod_two_pow, hne, ?_⟩
  intro hn hc
  constructor
  · intro h l hl hlc
    obtain ⟨nd, hnd⟩ := get_of_lt hn
    rw [links_at_of_get hnd] at hl
    have hsome : ∃ v, nd.links.reverse.find? (fun v => v.1 == c) = some v := by
      cases hf : nd.links.reverse.find? (fun v => v.1 == c) with
      | some v => exact ⟨v, rfl⟩
      | none =>
        rw [List.find?_eq_none] at hf
        have := hf l (List.mem_reverse.mpr hl)
        simp [hlc] at this
    obtain ⟨v, hv⟩ := hsome
    have hmem : v ∈ nd.links := List.mem_reverse.mp (List.mem_of_find?_eq_some hv)
    simp only [find_link, hc, Bool.not_true, Bool.false_eq_true, if_false, hnd, hv,
      Except.ok.injEq] at h
    exact hne n hn v (by rw [links_at_of_get hnd]; exact hmem) h
  · intro hno
    rw [find_link_none hn hc hno]

/-- Witness for C20: node 1 of `demo_built`, which has no link with code 0. -/
theorem no_node_is_no_child_witness :
    (find_link demo_acts demo_built 1 0).1 = .ok NO_NODE ↔
      ∀ l ∈ links_at demo_built 1, l.1 ≠ 0 :=
  (no_node_is_no_child demo_acts demo_built 1 0 (by decide) (by decide)).2.2.2
    (by decide) (by decide)

theorem add_new_link_ok_index {acts : actions_set_t} {a a1 : call_tree_t} {r m : Nat} {c : Int}
    (h : add_new_link acts a r c = (.ok m, a1)) : m < a1.nodes.length := by
  unfold add_new_link at h
  split at h
  · cases h
  · simp only [new_node] at h
    split at h
    · cases h
    · simp only [Prod.mk.injEq, Except.ok.injEq] at h
      obtain ⟨h1, h2⟩ := h
      subst h1 h2
      simp

theorem merge_times_preserves {P : call_tree_t → Prop}
    (hstart : ∀ a r time, P a → r < a.nodes.length → P (set_node_start_time a r time).2)
    (hstop : ∀ a r time, P a → r < a.nodes.length → P (set_node_stop_time a r time).2)
    {lhs a b : call_tree_t} {ln r : Nat} {res : Except fault Unit}
    (hP : P a) (hr : r < a.nodes.length) (h : merge_times lhs ln r a = (res, b)) : P b := by
  unfold merge_times at h
  split at h
  · split at h
    · simp only [Prod.mk.injEq] at h; exact h.2 ▸ hP
    · next start _ =>
      have k1 := hstart a r start hP hr
      have l1 := (set_node_start_time_keeps a r start).2.1
      split at h
      · next e rhs1 heq =>
        simp only [Prod.mk.injEq] at h
        rw [heq] at k1
        exact h.2 ▸ k1
      · next rhs1 heq =>
        rw [heq] at k1 l1
        split at h
        · simp only [Prod.mk.injEq] at h; exact h.2 ▸ k1
        · next stop _ =>
          have k2 := hstop rhs1 r stop k1 (lt_of_lt_of_le hr l1)
          rw [h] at k2
          exact k2
  · simp only [Prod.mk.injEq] at h; exact h.2 ▸ hP

theorem merge_links_preserves {P : call_tree_t → Prop} {acts : actions_set_t}
    (hadd : ∀ a r c, P a → r < a.nodes.length → P (add_new_link acts a r c).2)
    {recurse : Nat → Nat → call_tree_t → Option (Except fault Unit × call_tree_t)}
    (hrec : ∀ ln rn x res y, P x → rn < x.nodes.length → recurse ln rn x = some (res, y) →
      P y ∧ x.nodes.length ≤ y.nodes.length)
    {r : Nat} (links : List (Int × Nat)) :
    ∀ {a b : call_tree_t} {res : Except fault Unit}, P a → r < a.nodes.length →
      merge_links acts recurse r links a = some (res, b) → P b := by
  induction links with
  | nil =>
    intro a b res hP _ h
    simp only [merge_links, Option.some.injEq, Prod.mk.injEq] at h
    exact h.2 ▸ hP
  | cons l rest ih =>
    intro a b res hP hr h
    obtain ⟨c, ch⟩ := l
    have k1 := hadd a r c hP hr
    have l1 := (add_new_link_keeps acts a r c).2.1
    simp only [merge_links] at h
    split at h
    · next e rhs1 heq =>
      simp only [Option.some.injEq, Prod.mk.injEq] at h
      rw [heq] at k1
      exact h.2 ▸ k1
    · next m rhs1 heq =>
      have hm := add_new_link_ok_index heq
      rw [heq] at k1 l1
      split at h
      · cases h
      · next e rhs2 hq =>
        simp only [Option.some.injEq, Prod.mk.injEq] at h
        exact h.2 ▸ (hrec _ _ _ _ _ k1 hm hq).1
      · next rhs2 hq =>
        obtain ⟨k2, l2⟩ := hrec _ _ _ _ _ k1 hm hq
        exact ih k2 (by omega) h

theorem merge_into_node_preserves {P : call_tree_t → Prop} {acts : actions_set_t}
    (hadd : ∀ a r c, P a → r < a.nodes.length → P (add_new_link acts a r c).2)
    (hstart : ∀ a r time, P a → r < a.nodes.length → P (set_node_start_time a r time).2)
    (hstop : ∀ a r time, P a → r < a.nodes.length → P (set_node_stop_time a r time).2)
    {lhs : call_tree_t} (fuel : Nat) :
    ∀ (ln r : Nat) (a : call_tree_t) (res : Except fault Unit) (b : call_tree_t),
      P a → r < a.nodes.length → merge_into_node acts lhs fuel ln r a = some (res, b) → P b := by
  induction fuel with
  | zero => intro ln r a res b _ _ h; simp [merge_into_node] at h
  | succ f ih =>
    intro ln r a res b hP hr h
    simp only [merge_into_node] at h
    split at h
    · next e rhs1 heq =>
      simp only [Option.some.injEq, Prod.mk.injEq] at h
      exact h.2 ▸ merge_times_preserves hstart hstop hP hr heq
    · next rhs1 heq =>
      have k1 := merge_times_preserves hstart hstop hP hr heq
      have l1 := (merge_times_keeps heq).2.1
      split at h
      · simp only [Option.some.injEq, Prod.mk.injEq] at h
        exact h.2 ▸ k1
      · next links _ =>
        refine merge_links_preserves hadd ?_ links k1 (by omega) h
        intro ln2 rn x res2 y hx hrn hq
        exact ⟨ih ln2 rn x res2 y hx hrn hq, (merge_into_node_keeps f _ _ _ _ _ hq).2.1⟩

theorem run_ops_preserves {P : call_tree_t → Prop}
    (hadd : ∀ acts a r c, P a → r < a.nodes.length → P (add_new_link acts a r c).2)
    (hstart : ∀ a r time, P a → r < a.nodes.length → P (set_node_start_time a r time).2)
    (hstop : ∀ a r time, P a → r < a.nodes.length → P (set_node_stop_time a r time).2)
    (hstat : ∀ a k v, P a → P (add_stat a k v))
    (ops : List arena_op) :
    ∀ t t2, P t → run_ops t ops = some t2 → P t2 := by
  induction ops with
  | nil =>
    intro t t2 hP h
    simp only [run_ops, Option.some.injEq] at h
    exact h ▸ hP
  | cons op rest ih =>
    intro t t2 hP h
    by_cases hin : op.node_in_range t = true
    · simp only [run_ops, hin, if_true] at h
      cases ha : op.apply t with
      | none => simp [ha] at h
      | some t1 =>
        simp only [ha] at h
        refine ih t1 t2 ?_ h
        cases op with
        | add_new_link acts node c =>
          simp only [arena_op.node_in_range, decide_eq_true_eq] at hin
          simp only [arena_op.apply, Option.some.injEq] at ha
          exact ha ▸ hadd acts t node c hP hin
        | find_link acts node c =>
          simp only [arena_op.apply, Option.some.injEq] at ha
          rw [find_link_same] at ha
          exact ha ▸ hP
        | set_node_start_time node time =>
          simp only [arena_op.node_in_range, decide_eq_true_eq] at hin
          simp only [arena_op.apply, Option.some.injEq] at ha
          exact ha ▸ hstart t node time hP hin
        | set_node_stop_time node time =>
          simp only [arena_op.node_in_range, decide_eq_true_eq] at hin
          simp only [arena_op.apply, Option.some.injEq] at ha
          exact ha ▸ hstop t node time hP hin
        | add_stat key value =>
          simp only [arena_op.apply, Option.some.injEq] at ha
          exact ha ▸ hstat t key value hP
        | merge_into acts fuel lhs rhs_node =>
          simp only [arena_op.node_in_range, decide_eq_true_eq] at hin
          simp only [arena_op.apply, Option.map_eq_some'] at ha
          obtain ⟨⟨res, b⟩, hb, rfl⟩ := ha
          exact merge_into_node_preserves (hadd acts) hstart hstop fuel _ _ _ _ _ hP hin hb
    · simp [run_ops, hin] at h

theorem grown_at_code_at {a b : call_tree_t} {r : Nat} (h : grown_at a b r) :
    ∀ i, i < a.nodes.length → code_at b i = code_at a i := by
  intro i hi
  by_cases hir : i = r
  · subst hir; exact grown_at_code_eq h
  · exact code_at_congr (h.others i hi hir)

theorem code_at_some_lt {t : call_tree_t} {i : Nat} {c : Int} (h : code_at t i = some c) :
    i < t.nodes.length := by
  rcases Nat.lt_or_ge i t.nodes.length with h1 | h1
  · exact h1
  · simp [code_at, List.getElem?_eq_none h1] at h

theorem grown_at_link_codes_agree {a b : call_tree_t} {r : Nat} (h : grown_at a b r)
    (ha : link_codes_agree a) : link_codes_agree b := by
  intro i hi l hl
  have hold : ∀ l2 : Int × Nat, code_at a l2.2 = some l2.1 → code_at b l2.2 = some l2.1 := by
    intro l2 h2
    rw [grown_at_code_at h l2.2 (code_at_some_lt h2)]
    exact h2
  by_cases hia : i < a.nodes.length
  · by_cases hir : i = r
    · subst hir
      obtain ⟨nd, added, st, sp, hnd, hb, hadd⟩ := h.target
      simp only [links_at, hb, List.mem_append] at hl
      rcases hl with hl | hl
      · exact hold l (ha i hia l (by rw [links_at_of_get hnd]; exact hl))
      · exact (hadd l hl).2.2
    · rw [links_at_congr (h.others i hia hir)] at hl
      exact hold l (ha i hia l hl)
  · exact (h.fresh i (not_lt.mp hia) hi l hl).2.2

theorem link_codes_agree_same {a b : call_tree_t} (h : b.nodes = a.nodes)
    (ha : link_codes_agree a) : link_codes_agree b := by
  intro i hi l hl
  simp only [links_at, code_at, h] at hl hi ⊢
  exact ha i hi l hl

theorem add_stat_nodes (t : call_tree_t) (k : String) (v : stat_value_t) :
    (add_stat t k v).nodes = t.nodes ∧ (add_stat t k v).root = t.root := by
  unfold add_stat
  split <;> exact ⟨rfl, rfl⟩

/-- C18. In the arena reached from a fresh one by any sequence of calls, for
every link `(code, child)` stored at any node, `get_node_action_code(child)`
returns `code`. -/
theorem links_carry_child_code (acts : actions_set_t) (ops : List arena_op) (t : call_tree_t)
    (h : run_ops (call_tree_t.new acts) ops = some t) :
    ∀ i, i < t.nodes.length → ∀ l ∈ links_at t i,
      get_node_action_code t l.2 = .ok l.1 := by
  have hP : link_codes_agree t := by
    refine run_ops_preserves (P := link_codes_agree) ?_ ?_ ?_ ?_ ops _ t ?_ h
    · intro acts a r c ha hr
      exact grown_at_link_codes_agree (add_new_link_grown c hr) ha
    · intro a r time ha hr
      exact grown_at_link_codes_agree (set_node_start_time_grown hr rfl).2 ha
    · intro a r time ha hr
      exact grown_at_link_codes_agree (set_node_stop_time_grown hr rfl).2 ha
    · intro a k v ha
      exact link_codes_agree_same (add_stat_nodes a k v).1 ha
    · intro i hi l hl
      simp [call_tree_t.new, new_node] at hi
      subst hi
      simp [links_at, call_tree_t.new, new_node, node_t.new] at hl
  intro i hi l hl
  have := hP i hi l hl
  unfold code_at at this
  unfold get_node_action_code
  cases hn : t.nodes[l.2]? with
  | none => simp [hn] at this
  | some nd =>
    simp only [hn, Option.some.injEq] at this
    simp only [this]

/-- Witness for C18: the link `(1, 5)` of the root of the arena that `demo_ops`
builds. -/
theorem links_carry_child_code_witness :
    ((1 : Int), 5) ∈ links_at demo_built 0 ∧ get_node_action_code demo_built 5 = .ok 1 :=
  ⟨by decide,
   links_carry_child_code demo_acts demo_ops demo_built (by decide) 0 (by decide) (1, 5)
     (by decide)⟩

theorem child_pointers_set_count (j : Nat) (nd2 : node_t) (l : List node_t) :
    ∀ (r : Nat) (nd : node_t), l[r]? = some nd →
      ((l.set r nd2).flatMap (fun x => x.links.map Prod.snd)).count j
          + (nd.links.map Prod.snd).count j =
        (l.flatMap (fun x => x.links.map Prod.snd)).count j
          + (nd2.links.map Prod.snd).count j := by
  induction l with
  | nil => intro r nd h; simp at h
  | cons x rest ih =>
    intro r nd h
    cases r with
    | zero =>
      simp only [List.getElem?_cons_zero, Option.some.injEq] at h
      subst h
      simp only [List.set_cons_zero, List.flatMap_cons, List.count_append]
      omega
    | succ r =>
      simp only [List.getElem?_cons_succ] at h
      have := ih r nd h
      simp only [List.set_cons_succ, List.flatMap_cons, List.count_append]
      omega

theorem mem_child_pointers {t : call_tree_t} {x : Nat} (h : x ∈ child_pointers t) :
    ∃ i, i < t.nodes.length ∧ ∃ l ∈ links_at t i, l.2 = x := by
  unfold child_pointers at h
  rw [List.mem_flatMap] at h
  obtain ⟨nd, hnd, hx⟩ := h
  rw [List.mem_map] at hx
  obtain ⟨l, hl, rfl⟩ := hx
  obtain ⟨i, hi, rfl⟩ := List.getElem_of_mem hnd
  refine ⟨i, hi, l, ?_, rfl⟩
  rw [links_at_of_get (List.getElem?_eq_getElem hi)]
  exact hl

theorem child_pointers_mem {t : call_tree_t} {i : Nat} {l : Int × Nat}
    (hl : l ∈ links_at t i) : l.2 ∈ child_pointers t := by
  unfold child_pointers
  rw [List.mem_flatMap]
  cases hn : t.nodes[i]? with
  | none => simp [links_at, hn] at hl
  | some nd =>
    rw [links_at_of_get hn] at hl
    exact ⟨nd, List.getElem?_mem hn, List.mem_map.mpr ⟨l, hl, rfl⟩⟩

theorem grown_at_forward_links {a b : call_tree_t} {r : Nat} (h : grown_at a b r)
    (ha : ∀ i, i < a.nodes.length → ∀ l ∈ links_at a i, i < l.2 ∧ l.2 < a.nodes.length) :
    ∀ i, i < b.nodes.length → ∀ l ∈ links_at b i, i < l.2 ∧ l.2 < b.nodes.length := by
  intro i hi l hl
  by_cases hia : i < a.nodes.length
  · by_cases hir : i = r
    · subst hir
      obtain ⟨nd, added, st, sp, hnd, hb, hadd⟩ := h.target
      simp only [links_at, hb, List.mem_append] at hl
      rcases hl with hl | hl
      · obtain ⟨p, q⟩ := ha i hia l (by rw [links_at_of_get hnd]; exact hl)
        exact ⟨p, lt_of_lt_of_le q h.length_le⟩
      · obtain ⟨p, q, _⟩ := hadd l hl
        exact ⟨by omega, q⟩
    · rw [links_at_congr (h.others i hia hir)] at hl
      obtain ⟨p, q⟩ := ha i hia l hl
      exact ⟨p, lt_of_lt_of_le q h.length_le⟩
  · obtain ⟨p, q, _⟩ := h.fresh i (not_lt.mp hia) hi l hl
    exact ⟨p, q⟩

theorem tree_shaped_retime {a : call_tree_t} {r : Nat} {nd : node_t} (start stop : Int)
    (hnd : a.nodes[r]? = some nd) (ha : tree_shaped a) :
    tree_shaped { a with nodes := a.nodes.set r { nd with start_time := start, stop_time := stop } } := by
  refine ⟨grown_at_forward_links (grown_at_retime start stop hnd) ha.1, ?_⟩
  intro j h1 h2
  simp only [List.length_set] at h2
  have := child_pointers_set_count j { nd with start_time := start, stop_time := stop }
    a.nodes r nd hnd
  have h3 := ha.2 j h1 h2
  unfold child_pointers at h3 ⊢
  simp only at this ⊢
  omega

theorem tree_shaped_set_start {a : call_tree_t} {r : Nat} (time : Int)
    (ha : tree_shaped a) (hr : r < a.nodes.length) :
    tree_shaped (set_node_start_time a r time).2 := by
  obtain ⟨nd, hnd⟩ := get_of_lt hr
  simp only [set_node_start_time, hnd]
  exact tree_shaped_retime time nd.stop_time hnd ha

theorem tree_shaped_set_stop {a : call_tree_t} {r : Nat} (time : Int)
    (ha : tree_shaped a) (hr : r < a.nodes.length) :
    tree_shaped (set_node_stop_time a r time).2 := by
  obtain ⟨nd, hnd⟩ := get_of_lt hr
  simp only [set_node_stop_time, hnd]
  exact tree_shaped_retime nd.start_time time hnd ha

theorem tree_shaped_add_new_link {acts : actions_set_t} {a : call_tree_t} {r : Nat} (c : Int)
    (ha : tree_shaped a) (hr : r < a.nodes.length) :
    tree_shaped (add_new_link acts a r c).2 := by
  obtain ⟨nd, hnd⟩ := get_of_lt hr
  refine ⟨grown_at_forward_links (add_new_link_grown c hr) ha.1, ?_⟩
  by_cases hc : acts.code_is_valid c = true
  swap
  · have hc2 : acts.code_is_valid c = false := by simpa using hc
    rw [add_new_link_not_valid hc2]
    exact ha.2
  · rw [add_new_link_eq hnd hc]
    intro j h1 h2
    simp only [List.length_append, List.length_set, List.length_singleton] at h2
    have hcount := child_pointers_set_count j
      { nd with links := nd.links ++ [(c, a.nodes.length)] } a.nodes r nd hnd
    simp only [List.map_append, List.map_cons, List.map_nil, List.count_append] at hcount
    have hgoal : (child_pointers (call_tree_t.mk a.root
          (a.nodes.set r (node_t.mk nd.action_code nd.start_time nd.stop_time
            (nd.links ++ [(c, a.nodes.length)])) ++ [node_t.new c]) a.stats)).count j =
        ((a.nodes.set r (node_t.mk nd.action_code nd.start_time nd.stop_time
            (nd.links ++ [(c, a.nodes.length)]))).flatMap
          (fun x => x.links.map Prod.snd)).count j := by
      simp [child_pointers, List.flatMap_append, node_t.new]
    rw [hgoal]
    by_cases hj : j = a.nodes.length
    · subst hj
      have hzero : (child_pointers a).count a.nodes.length = 0 := by
        apply List.count_eq_zero_of_not_mem
        intro hm
        obtain ⟨i, hi, l, hl, hx⟩ := mem_child_pointers hm
        have := (ha.1 i hi l hl).2
        omega
      unfold child_pointers at hzero
      simp only [List.count_singleton_self] at hcount
      omega
    · have hone := ha.2 j h1 (by omega)
      unfold child_pointers at hone
      have : List.count j [a.nodes.length] = 0 := by
        simp [List.count_singleton, hj]
      omega

theorem tree_shaped_same {a b : call_tree_t} (h : b.nodes = a.nodes) (ha : tree_shaped a) :
    tree_shaped b := by
  unfold tree_shaped child_pointers links_at at ha ⊢
  rw [h]
  exact ha

theorem run_ops_tree_shaped {ops : List arena_op} {t t2 : call_tree_t}
    (ht : tree_shaped t) (h : run_ops t ops = some t2) : tree_shaped t2 := by
  refine run_ops_preserves (P := tree_shaped) ?_ ?_ ?_ ?_ ops t t2 ht h
  · intro acts a r c ha hr
    exact tree_shaped_add_new_link c ha hr
  · intro a r time ha hr
    exact tree_shaped_set_start time ha hr
  · intro a r time ha hr
    exact tree_shaped_set_stop time ha hr
  · intro a k v ha
    exact tree_shaped_same (add_stat_nodes a k v).1 ha

theorem tree_shaped_new (acts : actions_set_t) : tree_shaped (call_tree_t.new acts) := by
  constructor
  · intro i hi l hl
    simp [call_tree_t.new, new_node] at hi
    subst hi
    simp [links_at, call_tree_t.new, new_node, node_t.new] at hl
  · intro j h1 h2
    simp [call_tree_t.new, new_node] at h2
    omega

theorem merge_links_returns {acts : actions_set_t}
    {recurse : Nat → Nat → call_tree_t → Option (Except fault Unit × call_tree_t)}
    (hlen : ∀ ln rn x res y, recurse ln rn x = some (res, y) → x.nodes.length ≤ y.nodes.length)
    {r : Nat} (links : List (Int × Nat)) :
    (∀ l ∈ links, acts.code_is_valid l.1 = true) →
    (∀ l ∈ links, ∀ x m, m < x.nodes.length → ∃ y, recurse l.2 m x = some (.ok (), y)) →
    ∀ a, r < a.nodes.length → ∃ b, merge_links acts recurse r links a = some (.ok (), b) := by
  induction links with
  | nil => intro _ _ a _; exact ⟨a, rfl⟩
  | cons l rest ih =>
    intro hv hrec a hr
    obtain ⟨c, ch⟩ := l
    obtain ⟨nd, hnd⟩ := get_of_lt hr
    have hc := hv (c, ch) (List.mem_cons_self _ _)
    obtain ⟨y, hy⟩ := hrec (c, ch) (List.mem_cons_self _ _)
      (call_tree_t.mk a.root (a.nodes.set r (node_t.mk nd.action_code nd.start_time nd.stop_time
        (nd.links ++ [(c, a.nodes.length)])) ++ [node_t.new c]) a.stats) a.nodes.length (by simp)
    have hl := hlen _ _ _ _ _ hy
    simp only [List.length_append, List.length_set, List.length_singleton] at hl
    obtain ⟨b, hb⟩ := ih (fun l hm => hv l (List.mem_cons_of_mem _ hm))
      (fun l hm => hrec l (List.mem_cons_of_mem _ hm)) y (by omega)
    refine ⟨b, ?_⟩
    simp only [merge_links, add_new_link_eq hnd hc, hy]
    exact hb

theorem merge_into_node_returns {acts : actions_set_t} {lhs : call_tree_t}
    (hfwd : ∀ i, i < lhs.nodes.length → ∀ l ∈ links_at lhs i,
      i < l.2 ∧ l.2 < lhs.nodes.length)
    (hv : codes_valid acts lhs) (f : Nat) :
    ∀ ln, ln < lhs.nodes.length → lhs.nodes.length - ln ≤ f →
      ∀ a r, r < a.nodes.length → ∃ b, merge_into_node acts lhs f ln r a = some (.ok (), b) := by
  induction f with
  | zero => intro ln h1 h2; omega
  | succ f ih =>
    intro ln h1 h2 a r hr
    obtain ⟨nd, hnd⟩ := get_of_lt h1
    obtain ⟨a1, ha1, hlen1, _, _⟩ := merge_times_ok (a := a) hnd hr
    obtain ⟨b, hb⟩ := merge_links_returns (r := r)
      (fun ln rn x res y h => (merge_into_node_keeps f ln rn x res y h).2.1) nd.links
      (fun l hl => hv ln h1 l (by rw [links_at_of_get hnd]; exact hl))
      (fun l hl x m hm => by
        obtain ⟨p, q⟩ := hfwd ln h1 l (by rw [links_at_of_get hnd]; exact hl)
        exact ih l.2 q (by omega) x m hm)
      a1 (by omega)
    refine ⟨b, ?_⟩
    simp only [merge_into_node, ha1, get_node_links, hnd]
    exact hb

theorem add_new_link_ok_length {acts : actions_set_t} {a a1 : call_tree_t} {r m : Nat} {c : Int}
    (h : add_new_link acts a r c = (.ok m, a1)) : a1.nodes.length = a.nodes.length + 1 := by
  unfold add_new_link at h
  split at h
  · cases h
  · simp only [new_node] at h
    split at h
    · cases h
    · simp only [Prod.mk.injEq, Except.ok.injEq] at h
      obtain ⟨_, h2⟩ := h
      subst h2
      simp

theorem merge_times_length {lhs a b : call_tree_t} {ln r : Nat} {res : Except fault Unit}
    (h : merge_times lhs ln r a = (res, b)) : b.nodes.length = a.nodes.length := by
  unfold merge_times at h
  split at h
  · split at h
    · simp only [Prod.mk.injEq] at h; rw [← h.2]
    · next start _ =>
      have l1 : (set_node_start_time a r start).2.nodes.length = a.nodes.length := by
        unfold set_node_start_time
        split <;> simp
      split at h
      · next e rhs1 heq =>
        simp only [Prod.mk.injEq] at h
        rw [heq] at l1
        rw [← h.2]; exact l1
      · next rhs1 heq =>
        rw [heq] at l1
        split at h
        · simp only [Prod.mk.injEq] at h; rw [← h.2]; exact l1
        · next stop _ =>
          have l2 : (set_node_stop_time rhs1 r stop).2.nodes.length = rhs1.nodes.length := by
            unfold set_node_stop_time
            split <;> simp
          rw [h] at l2
          simp only at l1 l2
          omega
  · simp only [Prod.mk.injEq] at h; rw [← h.2]

theorem merge_links_count {acts : actions_set_t}
    {recurse : Nat → Nat → call_tree_t → Option (Except fault Unit × call_tree_t)}
    {cnt : Nat → Nat}
    (hrec : ∀ ln rn x y, recurse ln rn x = some (.ok (), y) →
      y.nodes.length = x.nodes.length + cnt ln)
    {r : Nat} (links : List (Int × Nat)) :
    ∀ {a b : call_tree_t}, merge_links acts recurse r links a = some (.ok (), b) →
      b.nodes.length = a.nodes.length + count_links cnt links := by
  induction links with
  | nil =>
    intro a b h
    simp only [merge_links, Option.some.injEq, Prod.mk.injEq] at h
    rw [← h.2]; rfl
  | cons l rest ih =>
    intro a b h
    obtain ⟨c, ch⟩ := l
    simp only [merge_links] at h
    split at h
    · cases h
    · next m rhs1 heq =>
      have l1 := add_new_link_ok_length heq
      split at h
      · cases h
      · cases h
      · next rhs2 hq =>
        have l2 := hrec _ _ _ _ hq
        have l3 := ih h
        simp only [count_links]
        omega

theorem merge_into_node_count {acts : actions_set_t} {lhs : call_tree_t} (f : Nat) :
    ∀ (ln r : Nat) (a b : call_tree_t), merge_into_node acts lhs f ln r a = some (.ok (), b) →
      b.nodes.length = a.nodes.length + count_under lhs f ln := by
  induction f with
  | zero => intro ln r a b h; simp [merge_into_node] at h
  | succ f ih =>
    intro ln r a b h
    simp only [merge_into_node] at h
    split at h
    · cases h
    · next rhs1 heq =>
      have l1 := merge_times_length heq
      cases hnd : lhs.nodes[ln]? with
      | none => simp [get_node_links, hnd] at h
      | some nd =>
        simp only [get_node_links, hnd] at h
        have l2 := @merge_links_count acts (merge_into_node acts lhs f) (count_under lhs f)
          (fun ln rn x y hq => ih ln rn x y hq) r nd.links _ _ h
        simp only [count_under, links_at_of_get hnd]
        omega

theorem count_links_congr {c1 c2 : Nat → Nat} (links : List (Int × Nat)) :
    (∀ l ∈ links, c1 l.2 = c2 l.2) → count_links c1 links = count_links c2 links := by
  induction links with
  | nil => intro _; rfl
  | cons l rest ih =>
    intro h
    obtain ⟨c, ch⟩ := l
    have h1 := h (c, ch) (List.mem_cons_self _ _)
    have h2 := ih (fun l hm => h l (List.mem_cons_of_mem _ hm))
    simp only [count_links] at h1 ⊢
    omega

theorem count_under_stable {t : call_tree_t}
    (hfwd : ∀ i, i < t.nodes.length → ∀ l ∈ links_at t i, i < l.2 ∧ l.2 < t.nodes.length)
    (f : Nat) :
    ∀ g n, n < t.nodes.length → t.nodes.length - n ≤ f → t.nodes.length - n ≤ g →
      count_under t f n = count_under t g n := by
  induction f with
  | zero => intro g n h1 h2; omega
  | succ f ih =>
    intro g n h1 h2 h3
    cases g with
    | zero => omega
    | succ g =>
      simp only [count_under]
      apply count_links_congr
      intro l hl
      obtain ⟨p, q⟩ := hfwd n h1 l hl
      exact ih g l.2 q (by omega) (by omega)

theorem count_links_eq_sum (a : Nat → Nat) (links : List (Int × Nat)) :
    count_links a links = links.length + ((links.map Prod.snd).map a).sum := by
  induction links with
  | nil => rfl
  | cons l rest ih =>
    obtain ⟨c, ch⟩ := l
    simp only [count_links, ih, List.length_cons, List.map_cons, List.sum_cons]
    omega

theorem sum_count_links (a : Nat → Nat) (nodes : List node_t) :
    (nodes.map (fun nd => count_links a nd.links)).sum =
      (nodes.flatMap (fun nd => nd.links.map Prod.snd)).length +
        ((nodes.flatMap (fun nd => nd.links.map Prod.snd)).map a).sum := by
  induction nodes with
  | nil => rfl
  | cons nd rest ih =>
    rw [List.map_cons, List.sum_cons, ih, count_links_eq_sum]
    simp only [List.flatMap_cons, List.length_append, List.map_append, List.sum_append,
      List.length_map]
    omega

theorem child_pointers_perm {t : call_tree_t} (ht : tree_shaped t) :
    (child_pointers t).Perm (List.range' 1 (t.nodes.length - 1)) := by
  rw [List.perm_iff_count]
  intro x
  by_cases hx : 1 ≤ x ∧ x < t.nodes.length
  · rw [ht.2 x hx.1 hx.2]
    symm
    apply List.count_eq_one_of_mem (List.nodup_range' 1 _)
    rw [List.mem_range'_1]
    omega
  · have h1 : (child_pointers t).count x = 0 := by
      apply List.count_eq_zero_of_not_mem
      intro hm
      obtain ⟨i, hi, l, hl, rfl⟩ := mem_child_pointers hm
      have := ht.1 i hi l hl
      omega
    have h2 : (List.range' 1 (t.nodes.length - 1)).count x = 0 := by
      apply List.count_eq_zero_of_not_mem
      rw [List.mem_range'_1]
      omega
    rw [h1, h2]

theorem count_under_root {t : call_tree_t} (ht : tree_shaped t) (hpos : 0 < t.nodes.length) :
    count_under t t.nodes.length 0 = t.nodes.length - 1 := by
  obtain ⟨f, hf⟩ : ∃ f, t.nodes.length = f + 1 := ⟨t.nodes.length - 1, by omega⟩
  have h1 : ∀ i, i < t.nodes.length →
      count_under t t.nodes.length i =
        count_links (count_under t t.nodes.length) (links_at t i) := by
    intro i hi
    rw [hf]
    simp only [count_under]
    apply count_links_congr
    intro l hl
    obtain ⟨p, q⟩ := ht.1 i hi l hl
    exact count_under_stable ht.1 f (f + 1) l.2 q (by omega) (by omega)
  have h2 : (List.range t.nodes.length).map (count_under t t.nodes.length) =
      t.nodes.map (fun nd => count_links (count_under t t.nodes.length) nd.links) := by
    apply List.ext_getElem
    · simp
    · intro n hn1 hn2
      simp only [List.length_map, List.length_range] at hn1
      simp only [List.getElem_map, List.getElem_range]
      rw [h1 n hn1, links_at_of_get (List.getElem?_eq_getElem hn1)]
  have h3 := sum_count_links (count_under t t.nodes.length) t.nodes
  rw [← h2] at h3
  have hperm := child_pointers_perm ht
  unfold child_pointers at hperm
  rw [hperm.length_eq, (hperm.map (count_under t t.nodes.length)).sum_eq] at h3
  rw [List.range_eq_range'] at h3
  simp only [List.length_range'] at h3
  have h4 : List.range' 0 t.nodes.length = 0 :: List.range' 1 (t.nodes.length - 1) := by
    rw [hf]
    simp [List.range'_succ]
  rw [h4] at h3
  simp only [List.map_cons, List.sum_cons] at h3
  omega

/-- C19. For a source arena of `S` nodes with root pointer 0 that has the tree
shape (every link leads to a later node of the arena, every index from 1 on is
the child pointer of exactly one link), whose link codes are all valid for
the target, and a node `t` inside the target: `merge_into(t, rhs)` comes back
without error, its recursion being no deeper than `S`, and the target then
has its previous node count plus `S - 1`. -/
theorem merge_into_adds_all_but_root (acts : actions_set_t) (lhs rhs : call_tree_t) (t : Nat)
    (hshape : tree_shaped lhs) (hroot : lhs.root = 0) (hpos : 0 < lhs.nodes.length)
    (hv : codes_valid acts lhs) (ht : t < rhs.nodes.length) :
    ∃ b, merge_into acts lhs.nodes.length lhs t rhs = some (.ok (), b) ∧
      b.nodes.length = rhs.nodes.length + (lhs.nodes.length - 1) := by
  obtain ⟨b, hb⟩ := merge_into_node_returns hshape.1 hv lhs.nodes.length 0 hpos (by omega) rhs t ht
  refine ⟨b, by unfold merge_into; rw [hroot]; exact hb, ?_⟩
  rw [merge_into_node_count _ _ _ _ _ hb, count_under_root hshape hpos]

/-- Witness for C19: `demo_source` (four nodes) merged into the root of
`demo_target`. -/
theorem merge_into_adds_all_but_root_witness :
    ∃ b, merge_into demo_acts demo_source.nodes.length demo_source 0 demo_target
        = some (.ok (), b) ∧
      b.nodes.length = demo_target.nodes.length + (demo_source.nodes.length - 1) :=
  merge_into_adds_all_but_root demo_acts demo_source demo_target 0 (by decide) (by decide)
    (by decide) (by decide) (by decide)

theorem valid_links_congr {acts : actions_set_t} {r1 r2 : Nat → Bool} (links : List (Int × Nat)) :
    (∀ l ∈ links, r1 l.2 = r2 l.2) → valid_links acts r1 links = valid_links acts r2 links := by
  induction links with
  | nil => intro _; rfl
  | cons l rest ih =>
    intro h
    obtain ⟨c, ch⟩ := l
    have h1 := h (c, ch) (List.mem_cons_self _ _)
    have h2 := ih (fun l hm => h l (List.mem_cons_of_mem _ hm))
    simp only at h1
    simp only [valid_links, h1, h2]

theorem valid_links_true_iff {acts : actions_set_t} {recurse : Nat → Bool}
    (links : List (Int × Nat)) :
    valid_links acts recurse links = true ↔
      ∀ l ∈ links, acts.code_is_valid l.1 = true ∧ recurse l.2 = true := by
  induction links with
  | nil => simp [valid_links]
  | cons l rest ih =>
    obtain ⟨c, ch⟩ := l
    simp only [valid_links, Bool.and_eq_true, ih, List.mem_cons, forall_eq_or_imp]

theorem valid_under_stable {acts : actions_set_t} {t : call_tree_t}
    (hfwd : ∀ i, i < t.nodes.length → ∀ l ∈ links_at t i, i < l.2 ∧ l.2 < t.nodes.length)
    (f : Nat) :
    ∀ g n, n < t.nodes.length → t.nodes.length - n ≤ f → t.nodes.length - n ≤ g →
      valid_under acts t f n = valid_under acts t g n := by
  induction f with
  | zero => intro g n h1 h2; omega
  | succ f ih =>
    intro g n h1 h2 h3
    cases g with
    | zero => omega
    | succ g =>
      simp only [valid_under]
      apply valid_links_congr
      intro l hl
      obtain ⟨p, q⟩ := hfwd n h1 l hl
      exact ih g l.2 q (by omega) (by omega)

theorem merge_links_outcome {acts : actions_set_t}
    {recurse : Nat → Nat → call_tree_t → Option (Except fault Unit × call_tree_t)}
    {vrec : Nat → Bool}
    (hlen : ∀ ln rn x res y, recurse ln rn x = some (res, y) → x.nodes.length ≤ y.nodes.length)
    {r : Nat} (links : List (Int × Nat)) :
    (∀ l ∈ links, ∀ x m, m < x.nodes.length →
      (vrec l.2 = true → ∃ y, recurse l.2 m x = some (.ok (), y)) ∧
      (vrec l.2 = false → ∃ y, recurse l.2 m x = some (.error .invalid_argument, y))) →
    ∀ a, r < a.nodes.length →
      (valid_links acts vrec links = true →
        ∃ b, merge_links acts recurse r links a = some (.ok (), b)) ∧
      (valid_links acts vrec links = false →
        ∃ b, merge_links acts recurse r links a = some (.error .invalid_argument, b)) := by
  induction links with
  | nil =>
    intro _ a _
    exact ⟨fun _ => ⟨a, rfl⟩, fun h => by simp [valid_links] at h⟩
  | cons l rest ih =>
    intro hrec a hr
    obtain ⟨c, ch⟩ := l
    obtain ⟨nd, hnd⟩ := get_of_lt hr
    by_cases hc : acts.code_is_valid c = true
    · have hch := hrec (c, ch) (List.mem_cons_self _ _)
        (call_tree_t.mk a.root (a.nodes.set r (node_t.mk nd.action_code nd.start_time
          nd.stop_time (nd.links ++ [(c, a.nodes.length)])) ++ [node_t.new c]) a.stats)
        a.nodes.length (by simp)
      by_cases hv : vrec ch = true
      · obtain ⟨y, hy⟩ := hch.1 hv
        have hl := hlen _ _ _ _ _ hy
        simp only [List.length_append, List.length_set, List.length_singleton] at hl
        have hrest := ih (fun l hm => hrec l (List.mem_cons_of_mem _ hm)) y (by omega)
        constructor
        · intro h
          simp only [valid_links, hc, hv, Bool.true_and] at h
          obtain ⟨b, hb⟩ := hrest.1 h
          exact ⟨b, by simp only [merge_links, add_new_link_eq hnd hc, hy]; exact hb⟩
        · intro h
          simp only [valid_links, hc, hv, Bool.true_and] at h
          obtain ⟨b, hb⟩ := hrest.2 h
          exact ⟨b, by simp only [merge_links, add_new_link_eq hnd hc, hy]; exact hb⟩
      · have hv2 : vrec ch = false := by simpa using hv
        obtain ⟨y, hy⟩ := hch.2 hv2
        constructor
        · intro h
          simp [valid_links, hv2] at h
        · intro _
          exact ⟨y, by simp only [merge_links, add_new_link_eq hnd hc, hy]⟩
    · have hc2 : acts.code_is_valid c = false := by simpa using hc
      constructor
      · intro h
        simp [valid_links, hc2] at h
      · intro _
        exact ⟨a, by simp only [merge_links, add_new_link_not_valid hc2]⟩

theorem merge_into_node_outcome {acts : actions_set_t} {lhs : call_tree_t}
    (hfwd : ∀ i, i < lhs.nodes.length → ∀ l ∈ links_at lhs i,
      i < l.2 ∧ l.2 < lhs.nodes.length) (f : Nat) :
    ∀ ln, ln < lhs.nodes.length → lhs.nodes.length - ln ≤ f →
      ∀ a r, r < a.nodes.length →
        (valid_under acts lhs f ln = true →
          ∃ b, merge_into_node acts lhs f ln r a = some (.ok (), b)) ∧
        (valid_under acts lhs f ln = false →
          ∃ b, merge_into_node acts lhs f ln r a = some (.error .invalid_argument, b)) := by
  induction f with
  | zero => intro ln h1 h2; omega
  | succ f ih =>
    intro ln h1 h2 a r hr
    obtain ⟨nd, hnd⟩ := get_of_lt h1
    obtain ⟨a1, ha1, hlen1, _, _⟩ := merge_times_ok (a := a) hnd hr
    have hout := @merge_links_outcome acts (merge_into_node acts lhs f) (valid_under acts lhs f)
      (fun ln rn x res y h => (merge_into_node_keeps f ln rn x res y h).2.1) r nd.links
      (fun l hl x m hm => by
        obtain ⟨p, q⟩ := hfwd ln h1 l (by rw [links_at_of_get hnd]; exact hl)
        exact ih l.2 q (by omega) x m hm)
      a1 (by omega)
    simp only [valid_under, links_at_of_get hnd]
    constructor
    · intro h
      obtain ⟨b, hb⟩ := hout.1 h
      exact ⟨b, by simp only [merge_into_node, ha1, get_node_links, hnd]; exact hb⟩
    · intro h
      obtain ⟨b, hb⟩ := hout.2 h
      exact ⟨b, by simp only [merge_into_node, ha1, get_node_links, hnd]; exact hb⟩

theorem valid_under_of_links {acts : actions_set_t} {t : call_tree_t}
    (h : ∀ n, ∀ l ∈ links_at t n, acts.code_is_valid l.1 = true) (f : Nat) :
    ∀ n, valid_under acts t f n = true := by
  induction f with
  | zero => intro n; rfl
  | succ f ih =>
    intro n
    simp only [valid_under]
    rw [valid_links_true_iff]
    intro l hl
    exact ⟨h n l hl, ih l.2⟩

theorem links_at_out_of_range {t : call_tree_t} {n : Nat} (h : t.nodes.length ≤ n) :
    links_at t n = [] := by
  simp [links_at, List.getElem?_eq_none h]

theorem codes_valid_all {acts : actions_set_t} {t : call_tree_t} (h : codes_valid acts t) :
    ∀ n, ∀ l ∈ links_at t n, acts.code_is_valid l.1 = true := by
  intro n l hl
  rcases Nat.lt_or_ge n t.nodes.length with h1 | h1
  · exact h n h1 l hl
  · rw [links_at_out_of_range h1] at hl
    cases hl

theorem valid_under_iff_node_codes {acts : actions_set_t} {lhs : call_tree_t}
    (hwf : well_formed lhs) (hshape : tree_shaped lhs) :
    valid_under acts lhs lhs.nodes.length 0 = true ↔
      ∀ i nd, 1 ≤ i → lhs.nodes[i]? = some nd → acts.code_is_valid nd.action_code = true := by
  have hpos : 0 < lhs.nodes.length := hwf.2.1
  obtain ⟨f, hf⟩ : ∃ f, lhs.nodes.length = f + 1 := ⟨lhs.nodes.length - 1, by omega⟩
  constructor
  · intro h0
    have key : ∀ j, j < lhs.nodes.length →
        valid_under acts lhs lhs.nodes.length j = true ∧
          (1 ≤ j → ∀ nd, lhs.nodes[j]? = some nd → acts.code_is_valid nd.action_code = true) := by
      intro j
      induction j using Nat.strong_induction_on with
      | _ j ih =>
        intro hj
        rcases Nat.eq_zero_or_pos j with h | h
        · subst h
          exact ⟨h0, fun h => by omega⟩
        · have hmem : j ∈ child_pointers lhs := by
            have := hshape.2 j h hj
            exact List.count_pos_iff.mp (by omega)
          obtain ⟨i, hi, l, hl, hlj⟩ := mem_child_pointers hmem
          obtain ⟨p, _⟩ := hshape.1 i hi l hl
          have hVi := (ih i (by omega) hi).1
          rw [hf] at hVi
          simp only [valid_under] at hVi
          rw [valid_links_true_iff] at hVi
          obtain ⟨hcode, hVl⟩ := hVi l hl
          rw [hlj] at hVl
          have hVj : valid_under acts lhs lhs.nodes.length j = true := by
            rw [← hVl]
            exact valid_under_stable hshape.1 lhs.nodes.length f j hj (by omega) (by omega)
          refine ⟨hVj, ?_⟩
          intro _ nd hnd
          have hagree := (hwf.2.2 i hi l hl).2
          rw [hlj] at hagree
          simp only [code_at, hnd, Option.some.injEq] at hagree
          rw [hagree]
          exact hcode
    intro i nd hi hnd
    exact (key i (lt_of_get hnd)).2 hi nd hnd
  · intro h
    apply valid_under_of_links
    intro n l hl
    rcases Nat.lt_or_ge n lhs.nodes.length with h1 | h1
    · obtain ⟨p, hagree⟩ := hwf.2.2 n h1 l hl
      cases hnd : lhs.nodes[l.2]? with
      | none => simp [code_at, hnd] at hagree
      | some nd =>
        simp only [code_at, hnd, Option.some.injEq] at hagree
        rw [← hagree]
        exact h l.2 nd (by omega) hnd
    · rw [links_at_out_of_range h1] at hl
      cases hl

theorem codes_valid_add_new_link {acts : actions_set_t} {a : call_tree_t} {r : Nat} (c : Int)
    (ha : codes_valid acts a) (hr : r < a.nodes.length) :
    codes_valid acts (add_new_link acts a r c).2 := by
  obtain ⟨nd, hnd⟩ := get_of_lt hr
  by_cases hc : acts.code_is_valid c = true
  · rw [add_new_link_eq hnd hc]
    intro i hi l hl
    simp only [List.length_append, List.length_set, List.length_singleton] at hi
    by_cases hir : i = r
    · subst hir
      simp only [links_at, get_add_new_link_self hnd, List.mem_append, List.mem_singleton] at hl
      rcases hl with hl | hl
      · exact ha i hr l (by rw [links_at_of_get hnd]; exact hl)
      · rw [hl]; exact hc
    · by_cases hiN : i = a.nodes.length
      · subst hiN
        simp [links_at, get_add_new_link_new, node_t.new] at hl
      · have hia : i < a.nodes.length := by omega
        simp only [links_at, get_add_new_link_other hia hir] at hl
        exact ha i hia l hl
  · have hc2 : acts.code_is_valid c = false := by simpa using hc
    rw [add_new_link_not_valid hc2]
    exact ha

theorem codes_valid_of_links_at {acts : actions_set_t} {a b : call_tree_t}
    (hlen : b.nodes.length = a.nodes.length) (hl : ∀ i, links_at b i = links_at a i)
    (ha : codes_valid acts a) : codes_valid acts b := by
  intro i hi l hm
  rw [hl i] at hm
  exact ha i (by omega) l hm

theorem run_ops_codes_valid {acts : actions_set_t} (ops : List arena_op) :
    ∀ t t2, nodes_from_add_new_link acts ops = true → codes_valid acts t →
      run_ops t ops = some t2 → codes_valid acts t2 := by
  induction ops with
  | nil =>
    intro t t2 _ hP h
    simp only [run_ops, Option.some.injEq] at h
    exact h ▸ hP
  | cons op rest ih =>
    intro t t2 hb hP h
    by_cases hin : op.node_in_range t = true
    · simp only [run_ops, hin, if_true] at h
      cases ha : op.apply t with
      | none => simp [ha] at h
      | some t1 =>
        simp only [ha] at h
        cases op with
        | add_new_link a node c =>
          simp only [nodes_from_add_new_link, Bool.and_eq_true, decide_eq_true_eq] at hb
          obtain ⟨rfl, hb2⟩ := hb
          simp only [arena_op.node_in_range, decide_eq_true_eq] at hin
          simp only [arena_op.apply, Option.some.injEq] at ha
          exact ih t1 t2 hb2 (ha ▸ codes_valid_add_new_link c hP hin) h
        | find_link a node c =>
          simp only [nodes_from_add_new_link] at hb
          simp only [arena_op.apply, Option.some.injEq] at ha
          rw [find_link_same] at ha
          exact ih t1 t2 hb (ha ▸ hP) h
        | set_node_start_time node time =>
          simp only [nodes_from_add_new_link] at hb
          simp only [arena_op.node_in_range, decide_eq_true_eq] at hin
          simp only [arena_op.apply, Option.some.injEq] at ha
          obtain ⟨b, hb1, hb2, hb3⟩ := set_node_start_time_spec (t := t) time hin
          rw [hb1] at ha
          exact ih t1 t2 hb (ha ▸ codes_valid_of_links_at hb2 hb3 hP) h
        | set_node_stop_time node time =>
          simp only [nodes_from_add_new_link] at hb
          simp only [arena_op.node_in_range, decide_eq_true_eq] at hin
          simp only [arena_op.apply, Option.some.injEq] at ha
          obtain ⟨b, hb1, hb2, hb3⟩ := exit_scope_spec (t := t) time hin
          rw [exit_scope] at hb1
          rw [hb1] at ha
          exact ih t1 t2 hb (ha ▸ codes_valid_of_links_at hb2 hb3 hP) h
        | add_stat key value =>
          simp only [nodes_from_add_new_link] at hb
          simp only [arena_op.apply, Option.some.injEq] at ha
          have hn := (add_stat_nodes t key value).1
          rw [ha] at hn
          refine ih t1 t2 hb ?_ h
          intro i hi l hl
          simp only [links_at, hn] at hl hi
          exact hP i hi l hl
        | merge_into a fuel lhs rhs_node =>
          simp [nodes_from_add_new_link] at hb
    · simp [run_ops, hin] at h

/-- C21. For a node `t` inside the target arena.  For every source arena that
is well formed and has the tree shape (root 0, every link to a later node that
carries the code of the link, every index from 1 on the child pointer of
exactly one link), and every recursion depth of at least the node count of
the source: `merge_into(t, rhs)` comes back, either without error or with the
invalid-argument error, and it ends with the invalid-argument error if and
only if some source node other than the root has an action code that is not
valid in the registry of the target.  For a source that a fresh arena was
turned into by calls among which `add_new_link`, always with that same
registry, is the only one that creates nodes, the call comes back without
error. -/
theorem merge_into_fails_iff_invalid_code (acts : actions_set_t) (rhs : call_tree_t) (t : Nat)
    (ht : t < rhs.nodes.length) :
    (∀ lhs fuel, well_formed lhs → tree_shaped lhs → lhs.nodes.length ≤ fuel →
      (∃ res b, merge_into acts fuel lhs t rhs = some (res, b) ∧
        (res = .ok () ∨ res = .error .invalid_argument)) ∧
      ((∃ b, merge_into acts fuel lhs t rhs = some (.error .invalid_argument, b)) ↔
        ∃ i nd, 1 ≤ i ∧ lhs.nodes[i]? = some nd ∧
          acts.code_is_valid nd.action_code = false)) ∧
    (∀ ops src fuel, nodes_from_add_new_link acts ops = true →
      run_ops (call_tree_t.new acts) ops = some src → src.nodes.length ≤ fuel →
      ∃ b, merge_into acts fuel src t rhs = some (.ok (), b)) := by
  constructor
  · intro lhs fuel hwf hshape hfuel
    have hroot : lhs.root = 0 := hwf.1
    have hpos : 0 < lhs.nodes.length := hwf.2.1
    have hout := @merge_into_node_outcome acts lhs hshape.1 fuel 0 hpos (by omega) rhs t ht
    have hstab : valid_under acts lhs fuel 0 = valid_under acts lhs lhs.nodes.length 0 :=
      valid_under_stable hshape.1 fuel lhs.nodes.length 0 hpos (by omega) (by omega)
    have hiff := @valid_under_iff_node_codes acts lhs hwf hshape
    unfold merge_into
    rw [hroot]
    cases hv : valid_under acts lhs fuel 0 with
    | true =>
      obtain ⟨b, hb⟩ := hout.1 hv
      refine ⟨⟨.ok (), b, hb, Or.inl rfl⟩, ?_⟩
      constructor
      · rintro ⟨b2, hb2⟩
        rw [hb] at hb2
        cases hb2
      · rintro ⟨i, nd, hi, hnd, hbad⟩
        have := hiff.mp (by rw [← hstab]; exact hv) i nd hi hnd
        rw [this] at hbad
        cases hbad
    | false =>
      obtain ⟨b, hb⟩ := hout.2 hv
      refine ⟨⟨.error .invalid_argument, b, hb, Or.inr rfl⟩, ?_⟩
      constructor
      · intro _
        by_contra hno
        have hall : ∀ i nd, 1 ≤ i → lhs.nodes[i]? = some nd →
            acts.code_is_valid nd.action_code = true := by
          intro i nd hi hnd
          by_contra hbad
          exact hno ⟨i, nd, hi, hnd, by simpa using hbad⟩
        have := hiff.mpr hall
        rw [← hstab, hv] at this
        cases this
      · intro _
        exact ⟨b, hb⟩
  · intro ops src fuel hops hrun hfuel
    have hshape := run_ops_tree_shaped (tree_shaped_new acts) hrun
    have hkeep := run_ops_keeps ops _ src hrun
    have hroot : src.root = 0 := hkeep.1
    have hpos : 0 < src.nodes.length := by
      have := hkeep.2.1
      simp [call_tree_t.new, new_node] at this
      omega
    have hvalid : codes_valid acts src := by
      refine run_ops_codes_valid ops _ src hops ?_ hrun
      intro i hi l hl
      simp [call_tree_t.new, new_node] at hi
      subst hi
      simp [links_at, call_tree_t.new, new_node, node_t.new] at hl
    obtain ⟨b, hb⟩ := merge_into_node_returns hshape.1 hvalid fuel 0 hpos (by omega) rhs t ht
    exact ⟨b, by unfold merge_into; rw [hroot]; exact hb⟩

/-- Witness for C21: `demo_source`, which has nodes with code 1, merged under
a registry that holds code 0 only stops with the invalid-argument error; the
scenario arena, built with `demo_acts`, merges under `demo_acts` without
error. -/
theorem merge_into_fails_iff_invalid_code_witness :
    merge_into demo_small_acts 4 demo_source 0 demo_target
      = some (.error .invalid_argument, demo_stopped) ∧
    ((∃ b, merge_into demo_small_acts 4 demo_source 0 demo_target
        = some (.error .invalid_argument, b)) ↔
      ∃ i nd, 1 ≤ i ∧ demo_source.nodes[i]? = some nd ∧
        demo_small_acts.code_is_valid nd.action_code = false) ∧
    (∃ b, merge_into demo_acts 3 demo_scenario 0 demo_target = some (.ok (), b)) :=
  ⟨rfl,
   ((merge_into_fails_iff_invalid_code demo_small_acts demo_target 0 (by decide)).1
      demo_source 4 (by decide) (by decide) (by decide)).2,
   (merge_into_fails_iff_invalid_code demo_acts demo_target 0 (by decide)).2
      demo_scenario_ops demo_scenario 3 (by decide) (by decide) (by decide)⟩

end react
